import Mathlib

/-!
Verification development for the `mogp_emulator` Gaussian-process core.

The repository ships only the test suite for the `GaussianProcess` class
(`src/mogp_emulator/tests/test_GaussianProcess.py`); the implementation file
itself is not part of the source tree.  Every definition below that embeds the
missing implementation is therefore modelled from the specification (`spec.md`),
with the repository's own regression tests used as the authority wherever the
two disagree.  Real arithmetic is embedded over an arbitrary linear ordered
field together with a record of transcendental operations (`Arith`), so that
all algorithms are executable; theorems instantiate the field at `ℚ` or `ℝ`.
-/

set_option linter.unusedSectionVars false

namespace Mogp

/-- Bundle of the transcendental operations the Gaussian-process core uses
(`numpy.exp`, `numpy.log`, `numpy.sqrt`, `numpy.pi`).  The algorithms are
written over an arbitrary linear ordered field together with such a bundle;
theorems that need square roots to be genuine add a `SqrtExact` hypothesis and
are instantiated at `ℝ`. -/
structure Arith (α : Type) where
  exp : α → α
  log : α → α
  sqrt : α → α
  pi : α

/-- The square-root slot of an `Arith` bundle is faithful on positive inputs. -/
def SqrtExact {α : Type} [LinearOrderedField α] (F : Arith α) : Prop :=
  ∀ x : α, 0 < x → 0 < F.sqrt x ∧ F.sqrt x * F.sqrt x = x

variable {α : Type} [LinearOrderedField α]

/-- Vectors are lists of field elements (a numpy 1-D array). -/
abbrev Vec (α : Type) := List α

/-- Matrices are lists of row vectors (a numpy 2-D array). -/
abbrev Mat (α : Type) := List (List α)

/-- Dot product of two lists, truncating to the shorter one (as
`numpy.dot` does for equal lengths; truncation only ever drops padding). -/
def dotZ (xs ys : Vec α) : α := (List.zipWith (fun a b => a * b) xs ys).sum

/-- Entry `(i, j)` of a matrix, with `0` as the out-of-range default. -/
def entry (A : Mat α) (i j : Nat) : α := (A.getD i []).getD j 0

/-- Build an `n × n` matrix from an entry function. -/
def mkMat (n : Nat) (f : Nat → Nat → α) : Mat α :=
  (List.range n).map fun i => (List.range n).map fun j => f i j

/-- Add `e` to every diagonal entry of a square matrix
(`A + e * numpy.eye(n)`). -/
def addDiag (A : Mat α) (e : α) : Mat α :=
  mkMat A.length fun i j => entry A i j + if i = j then e else 0

/-- The diagonal of a square matrix as a list. -/
def diagJ (A : Mat α) : Vec α :=
  (List.range A.length).map fun i => entry A i i

/-- Mean of the diagonal of a square matrix (`numpy.diag(A).mean()`). -/
def meanDiag (A : Mat α) : α := (diagJ A).sum / (A.length : α)

/-- The `n × n` identity matrix. -/
def idMat (n : Nat) : Mat α := mkMat n fun i j => if i = j then 1 else 0

/-- Matrix–vector product, row by row. -/
def matVec (M : Mat α) (v : Vec α) : Vec α := M.map fun row => dotZ row v

section Cholesky

variable (F : Arith α)

/-- Modelled from the spec (§4.3, step 1): the first `j` entries of row
`prev.length` of the lower-triangular Cholesky factor, given the previously
computed rows `prev` and the corresponding row `rowA` of the input matrix.
Entry `k` is `(A[i][k] - Σ_{t<k} L[i][t]·L[k][t]) / L[k][k]`. -/
def offDiagEntries (rowA : Vec α) (prev : Mat α) : Nat → Vec α
  | 0 => []
  | j + 1 =>
    let cur := offDiagEntries rowA prev j
    cur ++ [(rowA.getD j 0 - dotZ cur (prev.getD j [])) / (prev.getD j []).getD j 0]

/-- Modelled from the spec (§4.3, step 1): one new row of the Cholesky factor.
Fails exactly when the pivot (the quantity under the square root) is not
positive, which is how a dense Cholesky routine signals a non-positive-definite
leading minor. -/
def cholNewRow (rowA : Vec α) (prev : Mat α) : Option (Vec α) :=
  if rowA.getD prev.length 0 -
      dotZ (offDiagEntries rowA prev prev.length)
        (offDiagEntries rowA prev prev.length) ≤ 0 then none
  else
    some (offDiagEntries rowA prev prev.length ++
      [F.sqrt (rowA.getD prev.length 0 -
        dotZ (offDiagEntries rowA prev prev.length)
          (offDiagEntries rowA prev prev.length))])

/-- Row-by-row driver for the Cholesky factorization. -/
def cholAux : Mat α → Mat α → Option (Mat α)
  | [], acc => some acc
  | rowA :: rest, acc =>
    match cholNewRow F rowA acc with
    | none => none
    | some r => cholAux rest (acc ++ [r])

/-- Modelled from the spec (§4.3, step 1): plain lower-triangular Cholesky
factorization of a symmetric matrix, returning the jagged lower-triangular
factor (row `i` has `i + 1` entries), or `none` when a non-positive pivot is
encountered. -/
def cholesky (A : Mat α) : Option (Mat α) := cholAux F A []

/-- Modelled from the spec (§4.3, steps 2–4): retry loop of the stabilized
factorizer.  Each attempt factors `A + jit·I`; on failure the jitter is
multiplied by 10; the loop is bounded by the remaining attempt budget. -/
def jitGo (A : Mat α) : Nat → α → Option (Mat α × α)
  | 0, _ => none
  | k + 1, jit =>
    match cholesky F (addDiag A jit) with
    | some L => some (L, jit)
    | none => jitGo A k (jit * 10)

/-- Modelled from the spec (§4.3): `_jit_cholesky`.  First a plain Cholesky
attempt (reporting zero jitter on success); on failure the adaptive loop starts
from `mean(diag(A)) * 1e-6` and escalates tenfold for up to `maxtries`
attempts, else the stabilization fails (`none`). -/
def jit_cholesky (A : Mat α) (maxtries : Nat) : Option (Mat α × α) :=
  match cholesky F A with
  | some L => some (L, 0)
  | none => jitGo F A maxtries (meanDiag A * (1 / 1000000))

end Cholesky

section Solves

/-- Modelled from the spec (§4.4): forward substitution, building the first
`m` entries of the solution `z` of `L·z = b` for the jagged lower-triangular
factor `L` (entry `i` is `(b_i - Σ_{k<i} L[i][k]·z_k) / L[i][i]`). -/
def fsub (L : Mat α) (b : Vec α) : Nat → Vec α
  | 0 => []
  | m + 1 =>
    let z := fsub L b m
    z ++ [(b.getD m 0 - dotZ (L.getD m []) z) / (L.getD m []).getD m 0]

/-- Forward substitution solving `L·z = b`. -/
def forwardSub (L : Mat α) (b : Vec α) : Vec α := fsub L b L.length

/-- Column `i` of a jagged lower-triangular factor, strictly below the
diagonal: the entries `L[i+1][i], …, L[n-1][i]`. -/
def colBelow (L : Mat α) (i : Nat) : Vec α :=
  (L.drop (i + 1)).map fun r => r.getD i 0

/-- Modelled from the spec (§4.4): back substitution for `Lᵗ·x = z`, building
the entries for indices `n - m, …, n - 1` back to front (entry `i` is
`(z_i - Σ_{j>i} L[j][i]·x_j) / L[i][i]`). -/
def bsub (L : Mat α) (z : Vec α) (n : Nat) : Nat → Vec α
  | 0 => []
  | m + 1 =>
    let tail := bsub L z n m
    ((z.getD (n - m - 1) 0 - dotZ (colBelow L (n - m - 1)) tail) /
      (L.getD (n - m - 1) []).getD (n - m - 1) 0) :: tail

/-- Back substitution solving `Lᵗ·x = z`. -/
def backSub (L : Mat α) (z : Vec α) : Vec α := bsub L z L.length L.length

/-- Modelled from the spec (§4.4): solve `(L·Lᵗ)·x = b` by a forward and a
backward triangular solve against the Cholesky factor `L`
(`scipy.linalg.cho_solve`). -/
def cholSolve (L : Mat α) (b : Vec α) : Vec α := backSub L (forwardSub L b)

/-- Modelled from the spec (§4.4): the explicit inverse of `Q = L·Lᵗ`, obtained
by solving `Q·X = I` column by column; row `k` of the result solves
`Q·x = e_k` (for symmetric `Q` this is exactly `Q⁻¹`). -/
def invFromChol (L : Mat α) (n : Nat) : Mat α :=
  (idMat n).map fun e => cholSolve L e

end Solves

section Model

/-- Raw construction data: a numpy array that is either 1-D or 2-D. -/
inductive NDArray (α : Type) where
  | vec : List α → NDArray α
  | mat : List (List α) → NDArray α
deriving DecidableEq

/-- Raw optional third construction argument (the nugget specification):
absent, a scalar, an adaptive-policy marker seeded from a scalar, or an array
(which is an invalid nugget type). -/
inductive NuggetArg (α : Type) where
  | unset : NuggetArg α
  | scalar : α → NuggetArg α
  | adaptive : α → NuggetArg α
  | array : NDArray α → NuggetArg α
deriving DecidableEq

/-- Modelled from the spec (§7): the two error kinds of the core.  A
`validationError` is a malformed-argument failure (Python `ValueError` /
`AssertionError`); a `stabilizationFailure` is the Stabilized Factorizer
exhausting its retry budget (`scipy.linalg.LinAlgError`). -/
inductive GPError where
  | validationError : GPError
  | stabilizationFailure : GPError
deriving DecidableEq

/-- Modelled from the spec (§3, §6): the state of a `GaussianProcess` model
instance — the immutable normalized training set with its shape `(n, D)`, the
fixed nugget (`none` = the minimal numerical floor, modelled as zero since the
adaptive jitter supplies stabilization), and the mutable hyperparameter /
cache fields. -/
structure GP (α : Type) where
  inputs : Mat α
  targets : Vec α
  n : Nat
  D : Nat
  nugget : Option α
  theta : Option (Vec α)
  invQ : Option (Mat α)
  invQt : Option (Vec α)
  logdetQ : Option α
  current_theta : Option (Vec α)
  current_loglikelihood : Option α
deriving DecidableEq

/-- Modelled from the spec (§4.1): the Shape Normalizer for input data.  A 2-D
array is used as-is; a 1-D sequence becomes a single `1 × D` row. -/
def normalizeInputs : NDArray α → Mat α
  | .vec v => [v]
  | .mat m => m

/-- Modelled from the spec (§6): validation of the nugget argument.  `none`
means invalid type or value; `some ng` is the stored fixed-nugget field
(`some v` for a fixed non-negative scalar, `none` for the adaptive /
minimal-floor regimes). -/
def normalizeNugget : NuggetArg α → Option (Option α)
  | .unset => some none
  | .scalar v => if 0 ≤ v then some (some v) else none
  | .adaptive v => if 0 ≤ v then some none else none
  | .array _ => none

/-- Modelled from the spec (§4.1, §6): construction of a `GaussianProcess`
model.  Targets must be 1-D, the normalized input row count must equal the
target length, and the nugget argument must be valid; all checks happen before
any numeric work, and the training data is stored unchanged.  All
hyperparameter and cache fields start unset. -/
def GaussianProcess (x : NDArray α) (y : NDArray α) (ng : NuggetArg α) :
    Except GPError (GP α) :=
  match y with
  | .mat _ => .error .validationError
  | .vec t =>
    let X := normalizeInputs x
    if X.length = t.length then
      match normalizeNugget ng with
      | none => .error .validationError
      | some nug =>
        .ok ⟨X, t, X.length, (X.headD []).length, nug,
          none, none, none, none, none, none⟩
    else .error .validationError

/-- The stored fixed nugget, with the minimal numerical floor modelled as 0. -/
def nuggetVal (gp : GP α) : α := gp.nugget.getD 0

/-- Modelled from the spec (§4.2): entry of the anisotropic squared-exponential
kernel, `exp(θ_D) · exp(-½ Σ_d (x_{i,d} - x_{j,d})² / exp(θ_d))`. -/
def kernelEntry (F : Arith α) (θ : Vec α) (D : Nat) (xi xj : Vec α) : α :=
  F.exp (θ.getD D 0) *
    F.exp (-(1 / 2) *
      ((List.range D).map fun d =>
        (xi.getD d 0 - xj.getD d 0) ^ 2 / F.exp (θ.getD d 0)).sum)

/-- Modelled from the spec (§4.2): the `n × n` covariance matrix built from the
training inputs and theta. -/
def covMatrix (F : Arith α) (inputs : Mat α) (θ : Vec α) (D : Nat) : Mat α :=
  mkMat inputs.length fun i j =>
    kernelEntry F θ D (inputs.getD i []) (inputs.getD j [])

/-- Modelled from the spec (§4.3): `stabilized_factor` with its failure kind —
the `_jit_cholesky` loop with the default budget of 5 jitter attempts,
surfacing exhaustion as a `stabilizationFailure` (a `LinAlgError`, distinct
from a validation error). -/
def stabilized_factor (F : Arith α) (A : Mat α) : Except GPError (Mat α × α) :=
  match jit_cholesky F A 5 with
  | some r => .ok r
  | none => .error .stabilizationFailure

/-- Modelled from the spec (§4.4): `_prepare_likelihood`.  Builds `Q` from the
kernel plus the fixed nugget, factors it through the stabilized factorizer,
then computes `invQt` by triangular solves, `invQ` by solving `Q·X = I`, and
`logdetQ = 2·Σ log(diag(L))`, caching all three on the model. -/
def prepare_likelihood (F : Arith α) (gp : GP α) : Except GPError (GP α) :=
  match gp.theta with
  | none => .error .validationError
  | some θ =>
    let Q := addDiag (covMatrix F gp.inputs θ gp.D) (nuggetVal gp)
    match stabilized_factor F Q with
    | .error e => .error e
    | .ok (L, _) =>
      .ok { gp with
        invQ := some (invFromChol L gp.n),
        invQt := some (cholSolve L gp.targets),
        logdetQ := some (2 * ((diagJ L).map F.log).sum) }

/-- Modelled from the spec (§4.5): `_set_params`.  Validates the length of
theta against `D + 1`, stores it, and refreshes the cached quantities through
`_prepare_likelihood`. -/
def set_params (F : Arith α) (gp : GP α) (θ : Vec α) : Except GPError (GP α) :=
  if θ.length = gp.D + 1 then prepare_likelihood F { gp with theta := some θ }
  else .error .validationError

/-- The scalar the code returns: `½·(targetsᵗ·invQt + logdetQ + n·log(2π))`,
the negative marginal log-likelihood.  The sign follows the repository's
regression test, whose expected value `+17.0078…` is the positive half-sum of
positive reference quantities; the spec text writes `-½·(…)`. -/
def negLogLik (F : Arith α) (targets iqt : Vec α) (ld : α) (n : Nat) : α :=
  (1 / 2) * (dotZ targets iqt + ld + (n : α) * F.log (2 * F.pi))

/-- Modelled from the spec (§4.4): `loglikelihood`.  If theta differs from the
stored reference the cached quantities are refreshed through `_set_params`;
the scalar `negLogLik` is then computed from the cached quantities, and the
`current_theta` / `current_loglikelihood` caches are updated. -/
def loglikelihood (F : Arith α) (gp : GP α) (θ : Vec α) :
    Except GPError (GP α × α) :=
  match (if gp.theta = some θ then Except.ok gp else set_params F gp θ) with
  | .error e => .error e
  | .ok gp1 =>
    match gp1.invQt, gp1.logdetQ with
    | some iqt, some ld =>
      .ok ({ gp1 with
          current_theta := some θ,
          current_loglikelihood :=
            some (negLogLik F gp1.targets iqt ld gp1.n) },
        negLogLik F gp1.targets iqt ld gp1.n)
    | _, _ => .error .validationError

/-- State-passing wrapper for `set_params`: the model state after the call
(unchanged on failure) together with the error, if any. -/
def run_set_params (F : Arith α) (gp : GP α) (θ : Vec α) :
    GP α × Option GPError :=
  match set_params F gp θ with
  | .ok g => (g, none)
  | .error e => (gp, some e)

/-- State-passing wrapper for `loglikelihood`: the model state after the call
(unchanged on failure), the returned scalar, and the error, if any. -/
def run_loglikelihood (F : Arith α) (gp : GP α) (θ : Vec α) :
    GP α × Option α × Option GPError :=
  match loglikelihood F gp θ with
  | .ok (g, l) => (g, some l, none)
  | .error e => (gp, none, some e)

/-- Accessor `get_n`: the number of training examples. -/
def get_n (gp : GP α) : Nat := gp.n

/-- Accessor `get_D`: the number of input dimensions. -/
def get_D (gp : GP α) : Nat := gp.D

/-- The string representation of a model
(`"Gaussian Process with <n> training examples and <D> input variables"`). -/
def gpToString (gp : GP α) : String :=
  "Gaussian Process with " ++ toString gp.n ++ " training examples and " ++
    toString gp.D ++ " input variables"

end Model

/-- Modelled from the spec (§4.4, its literal words, for comparison with the
code): the spec's formula for the scalar marginal log-likelihood,
`-½·(targetsᵗ·invQt + logdetQ + n·log(2π))`. -/
noncomputable def specLogLikFormula (targets iqt : Vec ℝ) (ld : ℝ) (n : Nat) : ℝ :=
  -(1 / 2) * (dotZ targets iqt + ld + (n : ℝ) * Real.log (2 * Real.pi))

/-- Concrete `Arith` bundle over `ℚ`, used to run the model on concrete
inputs: the square root is exact on the perfect squares 1, 4 and 9 that the
concrete factorizations hit, and the exponential sends 0 to 1 and everything
else to 0 (an admissible instantiation for theorems that quantify over the
bundle). -/
def qF : Arith ℚ :=
  ⟨fun x => if x = 0 then 1 else 0,
   fun _ => 0,
   fun x => if x = 1 then 1 else if x = 4 then 2 else if x = 9 then 3 else 0,
   0⟩

/-- The genuine real-number `Arith` bundle. -/
noncomputable def realF : Arith ℝ := ⟨Real.exp, Real.log, Real.sqrt, Real.pi⟩

section Toolkit

theorem dotZ_nil_left (ys : Vec α) : dotZ ([] : Vec α) ys = 0 := rfl

theorem dotZ_nil_right (xs : Vec α) : dotZ xs ([] : Vec α) = 0 := by
  cases xs <;> rfl

theorem dotZ_cons (a b : α) (xs ys : Vec α) :
    dotZ (a :: xs) (b :: ys) = a * b + dotZ xs ys := by
  simp [dotZ]

theorem dotZ_eq_sum (xs ys : Vec α) :
    dotZ xs ys = ∑ t ∈ Finset.range (min xs.length ys.length),
      xs.getD t 0 * ys.getD t 0 := by
  induction xs generalizing ys with
  | nil => simp [dotZ]
  | cons a xs ih =>
    cases ys with
    | nil => simp [dotZ_nil_right]
    | cons b ys =>
      rw [dotZ_cons, ih, List.length_cons, List.length_cons, Nat.succ_min_succ,
        Finset.sum_range_succ']
      simp [add_comm]

theorem dotZ_comm (xs ys : Vec α) : dotZ xs ys = dotZ ys xs := by
  rw [dotZ_eq_sum, dotZ_eq_sum, min_comm]
  exact Finset.sum_congr rfl fun t _ => mul_comm _ _

theorem dotZ_append_left (xs ws ys : Vec α) (h : ys.length ≤ xs.length) :
    dotZ (xs ++ ws) ys = dotZ xs ys := by
  rw [dotZ_eq_sum, dotZ_eq_sum, List.length_append]
  rw [min_eq_right (le_trans h (Nat.le_add_right _ _)), min_eq_right h]
  exact Finset.sum_congr rfl fun t ht => by
    rw [List.getD_append _ _ _ _ (lt_of_lt_of_le (Finset.mem_range.mp ht) h)]

theorem dotZ_append_right (xs ys ws : Vec α) (h : xs.length ≤ ys.length) :
    dotZ xs (ys ++ ws) = dotZ xs ys := by
  rw [dotZ_comm, dotZ_append_left _ _ _ h, dotZ_comm]

theorem dotZ_snoc (xs ys : Vec α) (a b : α) (h : xs.length = ys.length) :
    dotZ (xs ++ [a]) (ys ++ [b]) = dotZ xs ys + a * b := by
  unfold dotZ
  rw [List.zipWith_append _ _ _ _ _ h, List.sum_append]
  simp

theorem dotZ_self_nonneg (xs : Vec α) : 0 ≤ dotZ xs xs := by
  rw [dotZ_eq_sum]
  exact Finset.sum_nonneg fun t _ => mul_self_nonneg _

theorem dotZ_self_diag_le (xs : Vec α) (i : Nat) (h : i < xs.length) :
    xs.getD i 0 * xs.getD i 0 ≤ dotZ xs xs := by
  rw [dotZ_eq_sum, min_self]
  exact Finset.single_le_sum (fun t _ => mul_self_nonneg (xs.getD t 0))
    (Finset.mem_range.mpr h)

theorem range_map_getD (n : Nat) (f : Nat → α) (i : Nat) (d : α) (h : i < n) :
    ((List.range n).map f).getD i d = f i := by
  rw [List.getD_eq_getElem?_getD, List.getElem?_map, List.getElem?_range h]
  rfl

theorem list_range_map_sum (n : Nat) (f : Nat → α) :
    ((List.range n).map f).sum = ∑ i ∈ Finset.range n, f i := by
  induction n with
  | zero => simp
  | succ n ih => rw [List.sum_range_succ, Finset.sum_range_succ, ih]

theorem mkMat_length (n : Nat) (f : Nat → Nat → α) : (mkMat n f).length = n := by
  simp [mkMat]

theorem mkMat_row (n : Nat) (f : Nat → Nat → α) (i : Nat) (h : i < n) :
    (mkMat n f).getD i [] = (List.range n).map fun j => f i j := by
  unfold mkMat
  rw [List.getD_eq_getElem?_getD, List.getElem?_map, List.getElem?_range h]
  rfl

theorem mkMat_row_length (n : Nat) (f : Nat → Nat → α) (i : Nat) (h : i < n) :
    ((mkMat n f).getD i []).length = n := by
  rw [mkMat_row n f i h]; simp

theorem mkMat_entry (n : Nat) (f : Nat → Nat → α) (i j : Nat)
    (hi : i < n) (hj : j < n) : entry (mkMat n f) i j = f i j := by
  unfold entry
  rw [mkMat_row n f i hi, range_map_getD n _ j 0 hj]

theorem addDiag_length (A : Mat α) (e : α) : (addDiag A e).length = A.length :=
  mkMat_length _ _

theorem addDiag_entry (A : Mat α) (e : α) (i j : Nat)
    (hi : i < A.length) (hj : j < A.length) :
    entry (addDiag A e) i j = entry A i j + if i = j then e else 0 :=
  mkMat_entry _ _ _ _ hi hj

theorem diagJ_sum (A : Mat α) :
    (diagJ A).sum = ∑ i ∈ Finset.range A.length, entry A i i := by
  unfold diagJ
  exact list_range_map_sum _ _

theorem getD_last (l : List α) (h : l ≠ []) (d : α) :
    l.getD (l.length - 1) d = l.getLast h := by
  rw [List.getLast_eq_getElem, List.getD_eq_getElem?_getD,
    List.getElem?_eq_getElem (by have := List.length_pos.mpr h; omega)]
  rfl

end Toolkit

section CholeskyProps

variable (F : Arith α)

theorem offDiagEntries_length (rowA : Vec α) (prev : Mat α) (j : Nat) :
    (offDiagEntries rowA prev j).length = j := by
  induction j with
  | zero => rfl
  | succ j ih => simp [offDiagEntries, ih]

theorem offDiagEntries_take (rowA : Vec α) (prev : Mat α) {j j' : Nat}
    (h : j ≤ j') :
    (offDiagEntries rowA prev j').take j = offDiagEntries rowA prev j := by
  induction j' with
  | zero =>
    have : j = 0 := Nat.le_zero.mp h
    subst this; rfl
  | succ j' ih =>
    rcases Nat.eq_or_lt_of_le h with hEq | hLt
    · subst hEq
      exact List.take_of_length_le
        (le_of_eq (offDiagEntries_length (α := α) rowA prev (j' + 1)))
    · have hle : j ≤ j' := Nat.lt_succ_iff.mp hLt
      show (offDiagEntries rowA prev j' ++ [_]).take j = _
      rw [List.take_append_of_le_length
        (by rw [offDiagEntries_length]; exact hle), ih hle]

theorem cholNewRow_spec (hs : SqrtExact F) (rowA : Vec α) (prev : Mat α)
    (r : Vec α)
    (hlen : ∀ j, j < prev.length → (prev.getD j []).length = j + 1)
    (hdiag : ∀ j, j < prev.length → 0 < entry prev j j)
    (h : cholNewRow F rowA prev = some r) :
    r.length = prev.length + 1 ∧
    0 < r.getD prev.length 0 ∧
    (∀ j, j < prev.length → dotZ r (prev.getD j []) = rowA.getD j 0) ∧
    dotZ r r = rowA.getD prev.length 0 := by
  unfold cholNewRow at h
  by_cases hpiv :
      rowA.getD prev.length 0 -
        dotZ (offDiagEntries rowA prev prev.length)
          (offDiagEntries rowA prev prev.length) ≤ 0
  · rw [if_pos hpiv] at h; exact absurd h (by simp)
  · rw [if_neg hpiv] at h
    have hr : r = offDiagEntries rowA prev prev.length ++
        [F.sqrt (rowA.getD prev.length 0 -
          dotZ (offDiagEntries rowA prev prev.length)
            (offDiagEntries rowA prev prev.length))] := (Option.some_inj.mp h).symm
    set n := prev.length with hn
    set cur := offDiagEntries rowA prev n with hcur
    set piv := rowA.getD n 0 - dotZ cur cur with hpivdef
    have hpiv' : 0 < piv := lt_of_not_le hpiv
    obtain ⟨hsq_pos, hsq_mul⟩ := hs piv hpiv'
    have hcurlen : cur.length = n := offDiagEntries_length _ _ _
    have hrlen : r.length = n + 1 := by
      rw [hr, List.length_append, hcurlen]; rfl
    have hrdiag : r.getD n 0 = F.sqrt piv := by
      rw [hr, List.getD_append_right _ _ _ _ (le_of_eq hcurlen), hcurlen,
        Nat.sub_self]
      rfl
    refine ⟨hrlen, by rw [hrdiag]; exact hsq_pos, ?_, ?_⟩
    · intro j hj
      set pj := prev.getD j [] with hpj
      have hpjlen : pj.length = j + 1 := hlen j hj
      have hpjne : pj ≠ [] := by
        intro hnil; rw [hnil] at hpjlen; exact absurd hpjlen (by simp)
      have hlast : pj.getD j 0 = pj.getLast hpjne := by
        have := getD_last pj hpjne 0
        rwa [hpjlen, Nat.add_sub_cancel] at this
      have hdpos : 0 < pj.getD j 0 := hdiag j hj
      have hdecomp : pj.dropLast ++ [pj.getLast hpjne] = pj :=
        List.dropLast_append_getLast hpjne
      have hdroplen : pj.dropLast.length = j := by
        rw [List.length_dropLast, hpjlen, Nat.add_sub_cancel]
      -- r truncates against pj to its first j + 1 entries
      have h1 : dotZ r pj = dotZ cur pj := by
        rw [hr]
        exact dotZ_append_left _ _ _ (by rw [hpjlen, hcurlen]; exact hj)
      have h2 : dotZ cur pj = dotZ (offDiagEntries rowA prev (j + 1)) pj := by
        conv_lhs => rw [← List.take_append_drop (j + 1) cur]
        rw [dotZ_append_left _ _ _
          (by rw [hpjlen, List.length_take, hcurlen]; exact le_min le_rfl hj)]
        rw [hcur, offDiagEntries_take _ _ hj]
      have hsplit : offDiagEntries rowA prev (j + 1) =
          offDiagEntries rowA prev j ++
            [(rowA.getD j 0 - dotZ (offDiagEntries rowA prev j) pj) /
              pj.getD j 0] := rfl
      set cj := offDiagEntries rowA prev j with hcj
      have hcjlen : cj.length = j := offDiagEntries_length _ _ _
      have h3 : dotZ cj pj = dotZ cj pj.dropLast := by
        conv_lhs => rw [← hdecomp]
        exact dotZ_append_right _ _ _ (by rw [hcjlen, hdroplen])
      have h4 : ∀ e : α, dotZ (cj ++ [e]) pj =
          dotZ cj pj.dropLast + e * pj.getLast hpjne := by
        intro e
        conv_lhs => rw [← hdecomp]
        rw [dotZ_snoc _ _ _ _ (by rw [hcjlen, hdroplen])]
      rw [h1, h2, hsplit, h4, ← hlast, h3, div_mul_cancel₀ _ (ne_of_gt hdpos)]
      ring
    · rw [hr, dotZ_snoc _ _ _ _ rfl, hsq_mul, hpivdef]
      ring

/-- The inductive invariant of the row-by-row Cholesky driver: the rows built
so far are a genuine partial factorization of `A`. -/
def CholInv (A acc : Mat α) : Prop :=
  acc.length ≤ A.length ∧
  (∀ i, i < acc.length → (acc.getD i []).length = i + 1) ∧
  (∀ i, i < acc.length → 0 < entry acc i i) ∧
  (∀ i j, i < acc.length → j ≤ i →
    dotZ (acc.getD i []) (acc.getD j []) = entry A i j)

theorem cholInv_nil (A : Mat α) : CholInv A [] :=
  ⟨Nat.zero_le _, fun i hi => absurd hi (by simp), fun i hi => absurd hi (by simp),
   fun i j hi _ => absurd hi (by simp)⟩

theorem cholInv_snoc (hs : SqrtExact F) (A acc : Mat α) (rowA r : Vec α)
    (rest : Mat α) (hdrop : A.drop acc.length = rowA :: rest)
    (hinv : CholInv A acc) (h : cholNewRow F rowA acc = some r) :
    CholInv A (acc ++ [r]) := by
  obtain ⟨hle, hlen, hdiag, hdot⟩ := hinv
  have hmlt : acc.length < A.length := by
    have := congrArg List.length hdrop
    rw [List.length_drop] at this
    simp at this
    omega
  have hrowA : A.getD acc.length [] = rowA := by
    have h0 : (A.drop acc.length)[0]? = some rowA := by rw [hdrop]; simp
    rw [List.getElem?_drop, Nat.add_zero] at h0
    rw [List.getD_eq_getElem?_getD, h0]
    rfl
  have hentryA : ∀ j, entry A acc.length j = rowA.getD j 0 := by
    intro j; unfold entry; rw [hrowA]
  obtain ⟨hrl, hrd, hrprev, hrself⟩ :=
    cholNewRow_spec F hs rowA acc r hlen hdiag h
  have hgetlt : ∀ i, i < acc.length → (acc ++ [r]).getD i [] = acc.getD i [] :=
    fun i hi => List.getD_append _ _ _ _ hi
  have hgetm : (acc ++ [r]).getD acc.length [] = r := by
    rw [List.getD_append_right _ _ _ _ le_rfl, Nat.sub_self]
    rfl
  have hlennew : (acc ++ [r]).length = acc.length + 1 := by simp
  refine ⟨by rw [hlennew]; omega, ?_, ?_, ?_⟩
  · intro i hi
    rw [hlennew] at hi
    rcases Nat.lt_succ_iff_lt_or_eq.mp hi with hi' | hi'
    · rw [hgetlt i hi']; exact hlen i hi'
    · subst hi'; rw [hgetm]; exact hrl
  · intro i hi
    rw [hlennew] at hi
    rcases Nat.lt_succ_iff_lt_or_eq.mp hi with hi' | hi'
    · unfold entry; rw [hgetlt i hi']; exact hdiag i hi'
    · subst hi'; unfold entry; rw [hgetm]; exact hrd
  · intro i j hi hj
    rw [hlennew] at hi
    rcases Nat.lt_succ_iff_lt_or_eq.mp hi with hi' | hi'
    · rw [hgetlt i hi', hgetlt j (lt_of_le_of_lt hj hi')]
      exact hdot i j hi' hj
    · subst hi'
      rw [hgetm]
      rcases Nat.lt_or_ge j acc.length with hj' | hj'
      · rw [hgetlt j hj', hentryA j]
        exact hrprev j hj'
      · have hjm : j = acc.length := le_antisymm hj hj'
        rw [hjm, hgetm, hentryA acc.length]
        exact hrself

theorem cholAux_inv (hs : SqrtExact F) (A : Mat α) :
    ∀ rest acc L, cholAux F rest acc = some L →
      A.drop acc.length = rest → CholInv A acc →
      CholInv A L ∧ L.length = A.length := by
  intro rest
  induction rest with
  | nil =>
    intro acc L h hdrop hinv
    have hL : L = acc := by
      unfold cholAux at h
      exact (Option.some_inj.mp h).symm
    subst hL
    refine ⟨hinv, ?_⟩
    have h2 := congrArg List.length hdrop
    rw [List.length_drop] at h2
    simp at h2
    have h1 := hinv.1
    omega
  | cons rowA rest ih =>
    intro acc L h hdrop hinv
    unfold cholAux at h
    cases hr : cholNewRow F rowA acc with
    | none => rw [hr] at h; exact absurd h (by simp)
    | some r =>
      rw [hr] at h
      have hdrop' : A.drop (acc ++ [r]).length = rest := by
        have : (acc ++ [r]).length = acc.length + 1 := by simp
        rw [this, ← List.drop_drop, hdrop]
        rfl
      exact ih (acc ++ [r]) L h hdrop'
        (cholInv_snoc F hs A acc rowA r rest hdrop hinv hr)

theorem cholesky_spec (hs : SqrtExact F) (A L : Mat α)
    (h : cholesky F A = some L) : CholInv A L ∧ L.length = A.length :=
  cholAux_inv F hs A A [] L h rfl (cholInv_nil A)

theorem jitGo_extract (A : Mat α) :
    ∀ k j L ε, jitGo F A k j = some (L, ε) →
      ∃ s : Nat, ε = j * 10 ^ s ∧ cholesky F (addDiag A ε) = some L := by
  intro k
  induction k with
  | zero => intro j L ε h; exact absurd h (by simp [jitGo])
  | succ k ih =>
    intro j L ε h
    unfold jitGo at h
    cases hc : cholesky F (addDiag A j) with
    | some L1 =>
      rw [hc] at h
      have h1 : L1 = L ∧ j = ε := by
        have := Option.some_inj.mp h
        exact ⟨congrArg Prod.fst this, congrArg Prod.snd this⟩
      obtain ⟨rfl, rfl⟩ := h1
      exact ⟨0, by ring, hc⟩
    | none =>
      rw [hc] at h
      obtain ⟨s, hεs, hchol⟩ := ih (j * 10) L ε h
      exact ⟨s + 1, by rw [hεs]; ring, hchol⟩

theorem cholesky_nil : cholesky F ([] : Mat α) = some [] := rfl

theorem cholInv_shift (A L : Mat α) (e : α)
    (hlenA : (∀ i j, i < A.length → j ≤ i →
      entry A i j = entry (addDiag A e) i j))
    (hinv : CholInv A L) : CholInv (addDiag A e) L := by
  obtain ⟨h1, h2, h3, h4⟩ := hinv
  refine ⟨by rw [addDiag_length]; exact h1, h2, h3, ?_⟩
  intro i j hi hj
  rw [h4 i j hi hj]
  exact hlenA i j (lt_of_lt_of_le hi h1) hj

theorem jit_cholesky_spec (hs : SqrtExact F) (A L : Mat α) (ε : α) (t : Nat)
    (h : jit_cholesky F A t = some (L, ε)) :
    CholInv (addDiag A ε) L ∧ L.length = A.length ∧ 0 ≤ ε := by
  unfold jit_cholesky at h
  cases hc : cholesky F A with
  | some L0 =>
    rw [hc] at h
    have h1 : L0 = L ∧ (0 : α) = ε := by
      have := Option.some_inj.mp h
      exact ⟨congrArg Prod.fst this, congrArg Prod.snd this⟩
    obtain ⟨rfl, hε⟩ := h1
    obtain ⟨hinv, hlen⟩ := cholesky_spec F hs A L0 hc
    subst hε
    refine ⟨cholInv_shift A L0 0 ?_ hinv, hlen, le_refl 0⟩
    intro i j hi hj
    rw [addDiag_entry A 0 i j hi (lt_of_le_of_lt hj hi)]
    simp
  | none =>
    rw [hc] at h
    obtain ⟨s, hεs, hchol⟩ := jitGo_extract F A t _ L ε h
    obtain ⟨hinv, hlen⟩ := cholesky_spec F hs (addDiag A ε) L hchol
    rw [addDiag_length] at hlen
    refine ⟨hinv, hlen, ?_⟩
    -- The attempt succeeded, so every diagonal entry of `A + ε·I` is
    -- positive; summing over the diagonal forces the mean diagonal, hence the
    -- jitter, to be positive.
    have hAne : A ≠ [] := by
      intro hnil
      rw [hnil] at hc
      rw [cholesky_nil] at hc
      exact absurd hc (by simp)
    have hn : 0 < A.length := List.length_pos.mpr hAne
    have hdiagpos : ∀ i, i < A.length → 0 < entry (addDiag A ε) i i := by
      intro i hi
      have hiL : i < L.length := by rw [hlen]; exact hi
      have heq := hinv.2.2.2 i i hiL (le_refl i)
      have hrow : i < (L.getD i []).length := by
        rw [hinv.2.1 i hiL]; omega
      have hsq : 0 < (L.getD i []).getD i 0 * (L.getD i []).getD i 0 :=
        mul_pos (hinv.2.2.1 i hiL) (hinv.2.2.1 i hiL)
      calc (0 : α) < (L.getD i []).getD i 0 * (L.getD i []).getD i 0 := hsq
        _ ≤ dotZ (L.getD i []) (L.getD i []) := dotZ_self_diag_le _ i hrow
        _ = entry (addDiag A ε) i i := heq
    have hsum : 0 < ∑ i ∈ Finset.range A.length, (entry A i i + ε) := by
      refine Finset.sum_pos ?_ ⟨0, Finset.mem_range.mpr hn⟩
      intro i hi
      have hi' := Finset.mem_range.mp hi
      have := hdiagpos i hi'
      rwa [addDiag_entry A ε i i hi' hi', if_pos rfl] at this
    rw [Finset.sum_add_distrib, Finset.sum_const, Finset.card_range,
      nsmul_eq_mul] at hsum
    set S := ∑ i ∈ Finset.range A.length, entry A i i with hS
    have hSdiag : meanDiag A = S / (A.length : α) := by
      unfold meanDiag
      rw [diagJ_sum]
    have hncast : (0 : α) < (A.length : α) := by exact_mod_cast hn
    have hεval : ε = S / (A.length : α) * ((1 / 1000000) * 10 ^ s) := by
      rw [hεs, hSdiag]; ring
    have hcpos : (0 : α) < (1 / 1000000) * 10 ^ s := by positivity
    have hSn : (A.length : α) * (S / (A.length : α)) = S :=
      mul_div_cancel₀ S (ne_of_gt hncast)
    have hsum2 : 0 < S * (1 + (1 / 1000000) * 10 ^ s) := by
      calc (0 : α) < S + (A.length : α) * ε := hsum
        _ = S * (1 + (1 / 1000000) * 10 ^ s) := by
            rw [hεval, ← mul_assoc, hSn]; ring
    have hSpos : 0 < S := by
      by_contra hSnonpos
      push_neg at hSnonpos
      have : S * (1 + (1 / 1000000) * 10 ^ s) ≤ 0 :=
        mul_nonpos_of_nonpos_of_nonneg hSnonpos (by positivity)
      exact absurd hsum2 (not_lt.mpr this)
    rw [hεval]
    positivity

end CholeskyProps

section SolveProps

theorem fsub_succ (L : Mat α) (b : Vec α) (m : Nat) :
    fsub L b (m + 1) = fsub L b m ++
      [(b.getD m 0 - dotZ (L.getD m []) (fsub L b m)) /
        (L.getD m []).getD m 0] := rfl

theorem fsub_length (L : Mat α) (b : Vec α) (m : Nat) :
    (fsub L b m).length = m := by
  induction m with
  | zero => rfl
  | succ m ih => rw [fsub_succ, List.length_append, ih]; rfl

theorem fsub_spec (L : Mat α) (b : Vec α)
    (hrow : ∀ i, i < L.length → (L.getD i []).length = i + 1)
    (hdiag : ∀ i, i < L.length → (L.getD i []).getD i 0 ≠ 0) :
    ∀ m, m ≤ L.length → ∀ i, i < m →
      dotZ (L.getD i []) (fsub L b m) = b.getD i 0 := by
  intro m
  induction m with
  | zero => intro _ i hi; exact absurd hi (Nat.not_lt_zero i)
  | succ m ih =>
    intro hm i hi
    have hmlt : m < L.length := lt_of_lt_of_le (Nat.lt_succ_self m) hm
    have hzlen : (fsub L b m).length = m := fsub_length L b m
    rcases Nat.lt_succ_iff_lt_or_eq.mp hi with hi' | hi'
    · rw [fsub_succ, dotZ_append_right _ _ _
        (by rw [hrow i (lt_trans hi' hmlt), hzlen]; exact hi')]
      exact ih (le_of_lt hm) i hi'
    · subst hi'
      have hne : L.getD i [] ≠ [] := by
        intro hnil
        have := hrow i hmlt
        rw [hnil] at this
        exact absurd this (by simp)
      have hlast : (L.getD i []).getD i 0 = (L.getD i []).getLast hne := by
        have := getD_last (L.getD i []) hne 0
        rwa [hrow i hmlt, Nat.add_sub_cancel] at this
      have hdecomp : (L.getD i []).dropLast ++ [(L.getD i []).getLast hne] =
          L.getD i [] := List.dropLast_append_getLast hne
      have hdroplen : (L.getD i []).dropLast.length = i := by
        rw [List.length_dropLast, hrow i hmlt, Nat.add_sub_cancel]
      have hsnoc : ∀ e : α, dotZ (L.getD i []) (fsub L b i ++ [e]) =
          dotZ (L.getD i []).dropLast (fsub L b i) +
            (L.getD i []).getLast hne * e := by
        intro e
        conv_lhs => rw [← hdecomp]
        rw [dotZ_snoc _ _ _ _ (by rw [hdroplen, fsub_length])]
      have htrunc : dotZ (L.getD i []) (fsub L b i) =
          dotZ (L.getD i []).dropLast (fsub L b i) := by
        conv_lhs => rw [← hdecomp]
        rw [dotZ_append_left _ _ _ (by rw [hdroplen, fsub_length])]
      rw [fsub_succ, hsnoc, htrunc, ← hlast,
        mul_div_cancel₀ _ (hdiag i hmlt)]
      ring

theorem bsub_succ (L : Mat α) (z : Vec α) (n m : Nat) :
    bsub L z n (m + 1) =
      ((z.getD (n - m - 1) 0 -
        dotZ (colBelow L (n - m - 1)) (bsub L z n m)) /
          (L.getD (n - m - 1) []).getD (n - m - 1) 0) :: bsub L z n m := rfl

theorem bsub_length (L : Mat α) (z : Vec α) (n m : Nat) :
    (bsub L z n m).length = m := by
  induction m with
  | zero => rfl
  | succ m ih => rw [bsub_succ, List.length_cons, ih]

theorem bsub_spec (L : Mat α) (z : Vec α)
    (hdiag : ∀ i, i < L.length → (L.getD i []).getD i 0 ≠ 0) :
    ∀ m, m ≤ L.length → ∀ t, t < m →
      (L.getD (L.length - m + t) []).getD (L.length - m + t) 0 *
          (bsub L z L.length m).getD t 0 +
        dotZ (colBelow L (L.length - m + t))
          ((bsub L z L.length m).drop (t + 1)) =
      z.getD (L.length - m + t) 0 := by
  intro m
  induction m with
  | zero => intro _ t ht; exact absurd ht (Nat.not_lt_zero t)
  | succ m ih =>
    intro hm t ht
    have hi0 : L.length - (m + 1) + 0 = L.length - m - 1 := by omega
    have hi0lt : L.length - m - 1 < L.length := by omega
    cases t with
    | zero =>
      rw [bsub_succ, hi0]
      show (L.getD (L.length - m - 1) []).getD (L.length - m - 1) 0 *
          ((_ : α) :: bsub L z L.length m).getD 0 0 + _ = _
      rw [List.getD_cons_zero, List.drop_one, List.tail_cons,
        mul_div_cancel₀ _ (hdiag _ hi0lt)]
      ring
    | succ t =>
      have htm : t < m := Nat.lt_succ_iff.mp ht
      have hidx : L.length - (m + 1) + (t + 1) = L.length - m + t := by omega
      rw [bsub_succ, hidx, List.getD_cons_succ, List.drop_succ_cons]
      exact ih (le_of_lt hm) t htm

theorem backSub_spec (L : Mat α) (z : Vec α)
    (hdiag : ∀ i, i < L.length → (L.getD i []).getD i 0 ≠ 0) :
    ∀ i, i < L.length →
      (L.getD i []).getD i 0 * (backSub L z).getD i 0 +
        dotZ (colBelow L i) ((backSub L z).drop (i + 1)) = z.getD i 0 := by
  intro i hi
  have := bsub_spec L z hdiag L.length le_rfl i hi
  unfold backSub
  rwa [Nat.sub_self, Nat.zero_add] at this

theorem colBelow_length (L : Mat α) (k : Nat) :
    (colBelow L k).length = L.length - (k + 1) := by
  unfold colBelow
  rw [List.length_map, List.length_drop]

theorem colBelow_getD (L : Mat α) (k t : Nat) (h : k + 1 + t < L.length) :
    (colBelow L k).getD t 0 = (L.getD (k + 1 + t) []).getD k 0 := by
  unfold colBelow
  rw [List.getD_eq_getElem?_getD, List.getElem?_map, List.getElem?_drop,
    List.getElem?_eq_getElem h]
  rw [List.getD_eq_getElem?_getD, List.getD_eq_getElem?_getD,
    List.getElem?_eq_getElem h]
  simp [List.getD_eq_getElem?_getD]

theorem getD_drop (x : Vec α) (k t : Nat) :
    (x.drop k).getD t 0 = x.getD (k + t) 0 := by
  rw [List.getD_eq_getElem?_getD, List.getElem?_drop,
    ← List.getD_eq_getElem?_getD]

theorem filter_range_le (i j : Nat) :
    (Finset.range (i + 1)).filter (fun k => k ≤ j) =
      Finset.range (min i j + 1) := by
  ext k
  simp only [Finset.mem_filter, Finset.mem_range, Nat.lt_succ_iff]
  omega

theorem filter_range_ge (k n : Nat) :
    (Finset.range n).filter (fun j => k ≤ j) = Finset.Ico k n := by
  ext j
  simp only [Finset.mem_filter, Finset.mem_range, Finset.mem_Ico]
  omega

/-- Composition of the two triangular solves: `cholSolve L b` really solves
`A·x = b` for any square matrix `A` whose entries agree with `L·Lᵗ`. -/
theorem cholSolve_matVec (L A : Mat α) (b : Vec α)
    (hrow : ∀ i, i < L.length → (L.getD i []).length = i + 1)
    (hdiagpos : ∀ i, i < L.length → 0 < entry L i i)
    (hAL : ∀ i j, i < L.length → j < L.length →
      entry A i j = dotZ (L.getD i []) (L.getD j []))
    (hArows : ∀ i, i < L.length → (A.getD i []).length = L.length) :
    ∀ i, i < L.length →
      dotZ (A.getD i []) (cholSolve L b) = b.getD i 0 := by
  intro i hi
  have hdiag : ∀ i, i < L.length → (L.getD i []).getD i 0 ≠ 0 :=
    fun i hi => ne_of_gt (hdiagpos i hi)
  set n := L.length with hn
  set z := forwardSub L b with hz
  set x := backSub L z with hx
  have hzlen : z.length = n := fsub_length L b n
  have hxlen : x.length = n := bsub_length L z n n
  have hfs : ∀ t, t < n → dotZ (L.getD t []) z = b.getD t 0 :=
    fun t ht => fsub_spec L b hrow hdiag n le_rfl t ht
  have hbs : ∀ t, t < n →
      (L.getD t []).getD t 0 * x.getD t 0 +
        dotZ (colBelow L t) (x.drop (t + 1)) = z.getD t 0 :=
    fun t ht => backSub_spec L z hdiag t ht
  have hcholx : cholSolve L b = x := rfl
  rw [hcholx]
  -- expand the row–vector product as a double sum over the factor entries
  have hstart : dotZ (A.getD i []) x =
      ∑ j ∈ Finset.range n, entry A i j * x.getD j 0 := by
    rw [dotZ_eq_sum, hArows i hi, hxlen, min_self]
    rfl
  have hinner : ∀ j, j < n → entry A i j =
      ∑ k ∈ Finset.range (min i j + 1),
        (L.getD i []).getD k 0 * (L.getD j []).getD k 0 := by
    intro j hj
    rw [hAL i j hi hj, dotZ_eq_sum, hrow i hi, hrow j hj, Nat.succ_min_succ]
  have hguard : ∀ j, j < n → entry A i j =
      ∑ k ∈ Finset.range (i + 1),
        if k ≤ j then (L.getD i []).getD k 0 * (L.getD j []).getD k 0
        else 0 := by
    intro j hj
    rw [hinner j hj, ← Finset.sum_filter, filter_range_le]
  have hswap : dotZ (A.getD i []) x =
      ∑ k ∈ Finset.range (i + 1), (L.getD i []).getD k 0 *
        (∑ j ∈ Finset.range n,
          if k ≤ j then (L.getD j []).getD k 0 * x.getD j 0 else 0) := by
    rw [hstart]
    rw [Finset.sum_congr rfl fun j hj => by
      rw [hguard j (Finset.mem_range.mp hj), Finset.sum_mul]]
    rw [Finset.sum_comm]
    refine Finset.sum_congr rfl fun k _ => ?_
    rw [Finset.mul_sum]
    refine Finset.sum_congr rfl fun j _ => ?_
    by_cases hkj : k ≤ j
    · rw [if_pos hkj, if_pos hkj]; ring
    · rw [if_neg hkj, if_neg hkj, zero_mul, mul_zero]
  have hcol : ∀ k, k < n →
      (∑ j ∈ Finset.range n,
        if k ≤ j then (L.getD j []).getD k 0 * x.getD j 0 else 0) =
      z.getD k 0 := by
    intro k hk
    rw [← Finset.sum_filter, filter_range_ge,
      Finset.sum_eq_sum_Ico_succ_bot hk]
    have htail : ∑ j ∈ Finset.Ico (k + 1) n,
        (L.getD j []).getD k 0 * x.getD j 0 =
        dotZ (colBelow L k) (x.drop (k + 1)) := by
      rw [Finset.sum_Ico_eq_sum_range, dotZ_eq_sum, colBelow_length,
        List.length_drop, hxlen, min_self]
      refine Finset.sum_congr rfl fun t ht => ?_
      have ht' := Finset.mem_range.mp ht
      rw [colBelow_getD L k t (by omega), getD_drop]
    rw [htail, ← hbs k hk]
  have hLiz : dotZ (L.getD i []) z =
      ∑ k ∈ Finset.range (i + 1), (L.getD i []).getD k 0 * z.getD k 0 := by
    rw [dotZ_eq_sum, hrow i hi, hzlen, min_eq_left (Nat.succ_le_of_lt hi)]
  rw [hswap, Finset.sum_congr rfl fun k hk => by
    rw [hcol k (lt_of_le_of_lt (Nat.lt_succ_iff.mp (Finset.mem_range.mp hk)) hi)],
    ← hLiz, hfs i hi]

end SolveProps

section PrepareProps

theorem kernelEntry_symm (F : Arith α) (θ : Vec α) (D : Nat) (xi xj : Vec α) :
    kernelEntry F θ D xi xj = kernelEntry F θ D xj xi := by
  unfold kernelEntry
  have hmap : ((List.range D).map fun d =>
      (xi.getD d 0 - xj.getD d 0) ^ 2 / F.exp (θ.getD d 0)) =
      (List.range D).map fun d =>
      (xj.getD d 0 - xi.getD d 0) ^ 2 / F.exp (θ.getD d 0) := by
    refine List.map_congr_left fun d _ => ?_
    rw [show (xi.getD d 0 - xj.getD d 0) ^ 2 =
      (xj.getD d 0 - xi.getD d 0) ^ 2 by ring]
  rw [hmap]

theorem covMatrix_length (F : Arith α) (X : Mat α) (θ : Vec α) (D : Nat) :
    (covMatrix F X θ D).length = X.length := mkMat_length _ _

theorem covMatrix_symm (F : Arith α) (X : Mat α) (θ : Vec α) (D : Nat)
    (i j : Nat) (hi : i < X.length) (hj : j < X.length) :
    entry (covMatrix F X θ D) i j = entry (covMatrix F X θ D) j i := by
  unfold covMatrix
  rw [mkMat_entry _ _ _ _ hi hj, mkMat_entry _ _ _ _ hj hi]
  exact kernelEntry_symm F θ D _ _

theorem addDiag_symm (A : Mat α) (e : α)
    (hsym : ∀ i j, i < A.length → j < A.length → entry A i j = entry A j i)
    (i j : Nat) (hi : i < A.length) (hj : j < A.length) :
    entry (addDiag A e) i j = entry (addDiag A e) j i := by
  rw [addDiag_entry A e i j hi hj, addDiag_entry A e j i hj hi, hsym i j hi hj]
  congr 1
  by_cases h : i = j
  · rw [if_pos h, if_pos h.symm]
  · rw [if_neg h, if_neg (fun hc => h hc.symm)]

theorem addDiag_row_length (A : Mat α) (e : α) (i : Nat) (hi : i < A.length) :
    ((addDiag A e).getD i []).length = A.length := by
  unfold addDiag
  exact mkMat_row_length _ _ i hi

theorem idMat_length (n : Nat) : (idMat n : Mat α).length = n :=
  mkMat_length _ _

theorem invFromChol_getD (L : Mat α) (n k : Nat) (hk : k < n) :
    (invFromChol L n).getD k [] = cholSolve L ((idMat n).getD k []) := by
  unfold invFromChol
  rw [List.getD_eq_getElem?_getD, List.getElem?_map,
    List.getElem?_eq_getElem (by rw [idMat_length]; exact hk)]
  rw [List.getD_eq_getElem?_getD,
    List.getElem?_eq_getElem (by rw [idMat_length]; exact hk)]
  rfl

theorem idMat_getD_entry (n k i : Nat) (hk : k < n) (hi : i < n) :
    ((idMat n : Mat α).getD k []).getD i 0 = if k = i then (1 : α) else 0 := by
  unfold idMat
  rw [mkMat_row _ _ k hk, range_map_getD _ _ i 0 hi]

/-- Unfolding of `_prepare_likelihood` when theta is set and the stabilized
factorization succeeds: the three derived quantities are cached, all other
fields are untouched. -/
theorem prepare_likelihood_eq (F : Arith α) (gp : GP α) (θ : Vec α)
    (L : Mat α) (ε : α) (hθ : gp.theta = some θ)
    (hjit : jit_cholesky F
      (addDiag (covMatrix F gp.inputs θ gp.D) (nuggetVal gp)) 5 =
        some (L, ε)) :
    prepare_likelihood F gp = .ok
      { gp with
        invQ := some (invFromChol L gp.n),
        invQt := some (cholSolve L gp.targets),
        logdetQ := some (2 * ((diagJ L).map F.log).sum) } := by
  unfold prepare_likelihood stabilized_factor
  simp only [hθ]
  rw [hjit]

/-- Master specification of `_prepare_likelihood` on a successful run: the
result caches exactly the solver outputs, the reported jitter is non-negative,
`invQt` solves `(Q + ε·I)·x = targets`, and each row `k` of `invQ` solves
`(Q + ε·I)·x = e_k` — i.e. `invQ` is the inverse of the (regularized,
symmetric) covariance matrix. -/
theorem prepare_likelihood_spec (F : Arith α) (hs : SqrtExact F) (gp : GP α)
    (θ : Vec α) (L : Mat α) (ε : α)
    (hθ : gp.theta = some θ)
    (hn : gp.inputs.length = gp.n)
    (hjit : jit_cholesky F
      (addDiag (covMatrix F gp.inputs θ gp.D) (nuggetVal gp)) 5 =
        some (L, ε)) :
    prepare_likelihood F gp = .ok
      { gp with
        invQ := some (invFromChol L gp.n),
        invQt := some (cholSolve L gp.targets),
        logdetQ := some (2 * ((diagJ L).map F.log).sum) } ∧
    0 ≤ ε ∧
    (∀ i, i < gp.n →
      dotZ ((addDiag (addDiag (covMatrix F gp.inputs θ gp.D) (nuggetVal gp))
          ε).getD i []) (cholSolve L gp.targets) = gp.targets.getD i 0) ∧
    (∀ k i, k < gp.n → i < gp.n →
      dotZ ((addDiag (addDiag (covMatrix F gp.inputs θ gp.D) (nuggetVal gp))
          ε).getD i []) ((invFromChol L gp.n).getD k []) =
        if k = i then (1 : α) else 0) := by
  set Q := addDiag (covMatrix F gp.inputs θ gp.D) (nuggetVal gp) with hQ
  have hQlen : Q.length = gp.n := by
    rw [hQ, addDiag_length, covMatrix_length, hn]
  obtain ⟨hinv, hLlenQ, hεnn⟩ := jit_cholesky_spec F hs Q L ε 5 hjit
  have hLn : L.length = gp.n := by rw [hLlenQ, hQlen]
  have hcov_sym : ∀ a b, a < (covMatrix F gp.inputs θ gp.D).length →
      b < (covMatrix F gp.inputs θ gp.D).length →
      entry (covMatrix F gp.inputs θ gp.D) a b =
        entry (covMatrix F gp.inputs θ gp.D) b a := by
    intro a b ha hb
    rw [covMatrix_length] at ha hb
    exact covMatrix_symm F gp.inputs θ gp.D a b ha hb
  have hQsym : ∀ i j, i < Q.length → j < Q.length →
      entry Q i j = entry Q j i := by
    intro i j hi hj
    rw [hQ] at hi hj ⊢
    rw [addDiag_length] at hi hj
    exact addDiag_symm _ _ hcov_sym i j hi hj
  have hQεsym : ∀ i j, i < gp.n → j < gp.n →
      entry (addDiag Q ε) i j = entry (addDiag Q ε) j i := by
    intro i j hi hj
    exact addDiag_symm Q ε hQsym i j (by rwa [hQlen]) (by rwa [hQlen])
  have hrow : ∀ i, i < L.length → (L.getD i []).length = i + 1 := hinv.2.1
  have hdiagpos : ∀ i, i < L.length → 0 < entry L i i := hinv.2.2.1
  have hAL : ∀ i j, i < L.length → j < L.length →
      entry (addDiag Q ε) i j = dotZ (L.getD i []) (L.getD j []) := by
    intro i j hi hj
    rcases le_total j i with hji | hij
    · exact (hinv.2.2.2 i j hi hji).symm
    · rw [hQεsym i j (by rwa [← hLn]) (by rwa [← hLn]),
        ← hinv.2.2.2 j i hj hij, dotZ_comm]
  have hArows : ∀ i, i < L.length → ((addDiag Q ε).getD i []).length =
      L.length := by
    intro i hi
    rw [addDiag_row_length Q ε i (by rw [hQlen, ← hLn]; exact hi), hQlen, ← hLn]
  have hmain := cholSolve_matVec L (addDiag Q ε) gp.targets hrow hdiagpos
    hAL hArows
  have hprep : prepare_likelihood F gp = .ok
      { gp with
        invQ := some (invFromChol L gp.n),
        invQt := some (cholSolve L gp.targets),
        logdetQ := some (2 * ((diagJ L).map F.log).sum) } :=
    prepare_likelihood_eq F gp θ L ε hθ (by rw [← hQ]; exact hjit)
  refine ⟨hprep, hεnn, ?_, ?_⟩
  · intro i hi
    exact hmain i (by rwa [hLn])
  · intro k i hk hi
    rw [invFromChol_getD L gp.n k hk]
    have hcs := cholSolve_matVec L (addDiag Q ε) ((idMat gp.n).getD k [])
      hrow hdiagpos hAL hArows i (by rwa [hLn])
    rw [hcs, idMat_getD_entry gp.n k i hk hi]

end PrepareProps

section StoreProps

theorem set_params_of_length (F : Arith α) (gp : GP α) (θ : Vec α)
    (h : θ.length = gp.D + 1) :
    set_params F gp θ = prepare_likelihood F { gp with theta := some θ } := by
  unfold set_params
  rw [if_pos h]

theorem set_params_of_bad_length (F : Arith α) (gp : GP α) (θ : Vec α)
    (h : θ.length ≠ gp.D + 1) :
    set_params F gp θ = .error .validationError := by
  unfold set_params
  rw [if_neg h]

theorem prepare_likelihood_ok (F : Arith α) (g gout : GP α)
    (h : prepare_likelihood F g = .ok gout) :
    gout.inputs = g.inputs ∧ gout.targets = g.targets ∧ gout.n = g.n ∧
    gout.D = g.D ∧ gout.nugget = g.nugget ∧ gout.theta = g.theta ∧
    gout.current_theta = g.current_theta ∧
    gout.current_loglikelihood = g.current_loglikelihood ∧
    (∃ v, gout.invQt = some v) ∧ (∃ v, gout.logdetQ = some v) := by
  unfold prepare_likelihood at h
  cases hθ : g.theta with
  | none => rw [hθ] at h; exact absurd h (by simp)
  | some θ =>
    rw [hθ] at h
    simp only [] at h
    cases hsf : stabilized_factor F
        (addDiag (covMatrix F g.inputs θ g.D) (nuggetVal g)) with
    | error e => rw [hsf] at h; exact absurd h (by simp)
    | ok r =>
      rw [hsf] at h
      obtain ⟨L, ε⟩ := r
      have hrec := Except.ok.inj h
      rw [← hrec]
      simp [hθ]

theorem set_params_ok (F : Arith α) (gp gout : GP α) (θ : Vec α)
    (h : set_params F gp θ = .ok gout) :
    gout.theta = some θ ∧ gout.inputs = gp.inputs ∧
    gout.targets = gp.targets ∧ gout.n = gp.n ∧ gout.D = gp.D ∧
    (∃ v, gout.invQt = some v) ∧ (∃ v, gout.logdetQ = some v) := by
  unfold set_params at h
  by_cases hlen : θ.length = gp.D + 1
  · rw [if_pos hlen] at h
    obtain ⟨h1, h2, h3, h4, _, h6, _, _, h9, h10⟩ :=
      prepare_likelihood_ok F _ gout h
    exact ⟨h6, h1, h2, h3, h4, h9, h10⟩
  · rw [if_neg hlen] at h
    exact absurd h (by simp)

theorem loglikelihood_branch_ok (F : Arith α) (gp gp1 : GP α) (θ : Vec α)
    (iqt : Vec α) (ld : α)
    (hbranch : (if gp.theta = some θ then Except.ok gp
      else set_params F gp θ) = .ok gp1)
    (hiqt : gp1.invQt = some iqt) (hld : gp1.logdetQ = some ld) :
    loglikelihood F gp θ = .ok
      ({ gp1 with
          current_theta := some θ,
          current_loglikelihood :=
            some (negLogLik F gp1.targets iqt ld gp1.n) },
        negLogLik F gp1.targets iqt ld gp1.n) := by
  unfold loglikelihood
  rw [hbranch]
  obtain ⟨gi, gt, gn, gD, gng, gθv, giQ, giqt, gld2, gct, gcl⟩ := gp1
  have hiqt2 : giqt = some iqt := hiqt
  have hld2 : gld2 = some ld := hld
  subst hiqt2
  subst hld2
  rfl

end StoreProps

section Examples

/-- The test suite's 1 × 3 model (inputs `[[1,2,3]]`, target `[2]`). -/
def gpEx13 : GP ℚ :=
  ⟨[[1, 2, 3]], [2], 1, 3, none, none, none, none, none, none, none⟩

/-- The test suite's 3 × 2 model (inputs `reshape([1..6], (3,2))`). -/
def gpEx32 : GP ℚ :=
  ⟨[[1, 2], [3, 4], [5, 6]], [2, 3, 4], 3, 2, none,
    none, none, none, none, none, none⟩

/-- The test suite's single-point model built from a flat 1-D input. -/
def gpVec16 : GP ℚ :=
  ⟨[[1, 2, 3, 4, 5, 6]], [2], 1, 6, none, none, none, none, none, none, none⟩

/-- The test suite's 3 × 3 model (inputs `reshape([1,2,3,2,4,1,4,2,2],(3,3))`,
targets `[2,3,4]`). -/
def gpEx33 : GP ℚ :=
  ⟨[[1, 2, 3], [2, 4, 1], [4, 2, 2]], [2, 3, 4], 3, 3, none,
    none, none, none, none, none, none⟩

/-- The state of the 3 × 3 model after a `loglikelihood` call with theta =
zeros(4) under the dummy rational bundle `qF` (covariance = identity):
`invQ = I`, `invQt = targets`, `logdetQ = 0`, scalar `29/2`. -/
def gpAfter33 : GP ℚ :=
  ⟨[[1, 2, 3], [2, 4, 1], [4, 2, 2]], [2, 3, 4], 3, 3, none,
    some [0, 0, 0, 0], some [[1, 0, 0], [0, 1, 0], [0, 0, 1]],
    some [2, 3, 4], some 0, some [0, 0, 0, 0], some (29 / 2)⟩

/-- Field-level description of any successfully constructed model. -/
theorem GaussianProcess_ok (x : NDArray α) (t : Vec α) (ng : NuggetArg α)
    (gp : GP α) (h : GaussianProcess x (NDArray.vec t) ng = .ok gp) :
    gp.inputs = normalizeInputs x ∧ gp.targets = t ∧
    gp.n = (normalizeInputs x).length ∧
    gp.D = ((normalizeInputs x).headD []).length ∧
    (normalizeInputs x).length = t.length ∧
    gp.theta = none ∧ gp.invQ = none ∧ gp.invQt = none ∧
    gp.logdetQ = none ∧ gp.current_theta = none ∧
    gp.current_loglikelihood = none := by
  simp only [GaussianProcess] at h
  by_cases hl : (normalizeInputs x).length = t.length
  · rw [if_pos hl] at h
    cases hng : normalizeNugget ng with
    | none => rw [hng] at h; exact absurd h (by simp)
    | some nug =>
      rw [hng] at h
      have hrec := (Except.ok.inj h).symm
      subst hrec
      exact ⟨rfl, rfl, rfl, rfl, hl, rfl, rfl, rfl, rfl, rfl, rfl⟩
  · rw [if_neg hl] at h
    exact absurd h (by simp)

end Examples

section Claims1

/-- C7: constructing a model from the 1-D input sequence `[1,2,3,4,5,6]`
paired with the single-element target `[2.0]` interprets the input as exactly
one training point of dimension 6: the model has `n = 1`, `D = 6`, and the
input is stored as the `1 × 6` matrix `[[1,2,3,4,5,6]]`. -/
theorem claim_C7 :
    (GaussianProcess (NDArray.vec [1, 2, 3, 4, 5, 6]) (NDArray.vec [2])
        NuggetArg.unset : Except GPError (GP ℚ)) = .ok gpVec16 ∧
    gpVec16.n = 1 ∧ gpVec16.D = 6 ∧
    gpVec16.inputs = [[1, 2, 3, 4, 5, 6]] ∧ gpVec16.targets = [2] :=
  ⟨rfl, rfl, rfl, rfl, rfl⟩

/-- C8: construction fails with a validation error — before any numeric
work — whenever the normalized input row count differs from the target length,
whenever the targets are 2-D (more than one value per observation), and
whenever the nugget argument is invalid; in particular on the four bad-input
cases of the test suite. -/
theorem claim_C8 :
    (∀ (x : NDArray ℚ) (t : Vec ℚ) (ng : NuggetArg ℚ),
      (normalizeInputs x).length ≠ t.length →
      GaussianProcess x (NDArray.vec t) ng = .error .validationError) ∧
    (∀ (x : NDArray ℚ) (m : Mat ℚ) (ng : NuggetArg ℚ),
      GaussianProcess x (NDArray.mat m) ng = .error .validationError) ∧
    (∀ (x : NDArray ℚ) (t : Vec ℚ) (ng : NuggetArg ℚ),
      normalizeNugget ng = none →
      GaussianProcess x (NDArray.vec t) ng = .error .validationError) ∧
    (GaussianProcess (NDArray.mat [[1, 2, 3]]) (NDArray.vec [2])
      (NuggetArg.array (NDArray.vec [4])) : Except GPError (GP ℚ)) =
        .error .validationError ∧
    (GaussianProcess (NDArray.vec [1, 2, 3, 4, 5, 6]) (NDArray.vec [2, 3])
      NuggetArg.unset : Except GPError (GP ℚ)) = .error .validationError ∧
    (GaussianProcess (NDArray.mat [[1, 2, 3], [4, 5, 6]])
      (NDArray.vec [2, 3, 4]) NuggetArg.unset : Except GPError (GP ℚ)) =
        .error .validationError ∧
    (GaussianProcess (NDArray.mat [[1, 2, 3]]) (NDArray.mat [[2, 3], [4, 5]])
      NuggetArg.unset : Except GPError (GP ℚ)) = .error .validationError := by
  refine ⟨?_, ?_, ?_, rfl, rfl, rfl, rfl⟩
  · intro x t ng h
    simp only [GaussianProcess]
    rw [if_neg h]
  · intro x m ng
    rfl
  · intro x t ng h
    simp only [GaussianProcess]
    by_cases hl : (normalizeInputs x).length = t.length
    · rw [if_pos hl, h]
    · rw [if_neg hl]

/-- Witness for C8: the general mismatch and bad-nugget cases applied to the
concrete failing inputs of the test suite. -/
theorem claim_C8_witness :
    (normalizeInputs (NDArray.vec ([1, 2, 3, 4, 5, 6] : Vec ℚ))).length ≠
      ([2, 3] : Vec ℚ).length ∧
    GaussianProcess (NDArray.vec ([1, 2, 3, 4, 5, 6] : Vec ℚ))
      (NDArray.vec [2, 3]) NuggetArg.unset = .error .validationError ∧
    normalizeNugget (NuggetArg.array (NDArray.vec ([4] : Vec ℚ))) = none ∧
    GaussianProcess (NDArray.mat ([[1, 2, 3]] : Mat ℚ)) (NDArray.vec [2])
      (NuggetArg.array (NDArray.vec [4])) = .error .validationError :=
  ⟨by decide, claim_C8.1 _ _ _ (by decide), rfl,
   claim_C8.2.2.1 _ _ _ rfl⟩

/-- C9: the accessors `get_n` and `get_D` return the stored `n` and `D`
(the shape of the normalized training set) without side effects, and the
string representation is exactly
`"Gaussian Process with <n> training examples and <D> input variables"`. -/
theorem claim_C9 :
    (∀ gp : GP ℚ, get_n gp = gp.n ∧ get_D gp = gp.D ∧
      gpToString gp = "Gaussian Process with " ++ toString gp.n ++
        " training examples and " ++ toString gp.D ++ " input variables") ∧
    (∀ (x : NDArray ℚ) (t : Vec ℚ) (ng : NuggetArg ℚ) (gp : GP ℚ),
      GaussianProcess x (NDArray.vec t) ng = .ok gp →
      get_n gp = (normalizeInputs x).length ∧
      get_D gp = ((normalizeInputs x).headD []).length ∧
      get_n gp = t.length) ∧
    (GaussianProcess (NDArray.mat [[1, 2, 3]]) (NDArray.vec [2])
      NuggetArg.unset : Except GPError (GP ℚ)) = .ok gpEx13 ∧
    gpToString gpEx13 =
      "Gaussian Process with 1 training examples and 3 input variables" := by
  refine ⟨fun gp => ⟨rfl, rfl, rfl⟩, ?_, rfl, ?_⟩
  · intro x t ng gp h
    obtain ⟨_, _, hn, hD, hlen, _⟩ := GaussianProcess_ok x t ng gp h
    exact ⟨hn, hD, by rw [get_n, hn, hlen]⟩
  · decide

/-- Witness for C9: the shape accessors of the concrete 1 × 3 model agree
with its construction data. -/
theorem claim_C9_witness :
    get_n gpEx13 =
      (normalizeInputs (NDArray.mat ([[1, 2, 3]] : Mat ℚ))).length ∧
    get_D gpEx13 =
      ((normalizeInputs (NDArray.mat ([[1, 2, 3]] : Mat ℚ))).headD []).length :=
  ⟨(claim_C9.2.1 (NDArray.mat [[1, 2, 3]]) [2] NuggetArg.unset gpEx13 rfl).1,
   (claim_C9.2.1 (NDArray.mat [[1, 2, 3]]) [2] NuggetArg.unset gpEx13 rfl).2.1⟩

/-- C10: a successful construction stores the normalized inputs and the given
targets exactly — a 2-D input as-is, a 1-D input as its `1 × D` reshape —
never rescaling or reordering the training data; in particular on the three
constructions of the test suite. -/
theorem claim_C10 :
    (∀ (x : NDArray ℚ) (t : Vec ℚ) (ng : NuggetArg ℚ) (gp : GP ℚ),
      GaussianProcess x (NDArray.vec t) ng = .ok gp →
      gp.inputs = normalizeInputs x ∧ gp.targets = t) ∧
    (∀ m : Mat ℚ, normalizeInputs (NDArray.mat m) = m) ∧
    (∀ v : Vec ℚ, normalizeInputs (NDArray.vec v) = [v]) ∧
    (GaussianProcess (NDArray.mat [[1, 2, 3]]) (NDArray.vec [2])
      NuggetArg.unset : Except GPError (GP ℚ)) = .ok gpEx13 ∧
    (GaussianProcess (NDArray.mat [[1, 2], [3, 4], [5, 6]])
      (NDArray.vec [2, 3, 4]) NuggetArg.unset : Except GPError (GP ℚ)) =
        .ok gpEx32 ∧
    (GaussianProcess (NDArray.vec [1, 2, 3, 4, 5, 6]) (NDArray.vec [2])
      NuggetArg.unset : Except GPError (GP ℚ)) = .ok gpVec16 := by
  refine ⟨?_, fun m => rfl, fun v => rfl, rfl, rfl, rfl⟩
  intro x t ng gp h
  obtain ⟨h1, h2, _⟩ := GaussianProcess_ok x t ng gp h
  exact ⟨h1, h2⟩

/-- Witness for C10: the stored data of the concrete 3 × 2 model equals its
construction data exactly. -/
theorem claim_C10_witness :
    gpEx32.inputs =
      normalizeInputs (NDArray.mat ([[1, 2], [3, 4], [5, 6]] : Mat ℚ)) ∧
    gpEx32.targets = ([2, 3, 4] : Vec ℚ) :=
  claim_C10.1 (NDArray.mat [[1, 2], [3, 4], [5, 6]]) [2, 3, 4]
    NuggetArg.unset gpEx32 rfl

/-- C5: for any model whose stored theta (if any) has the valid length
`D + 1`, calling `_set_params` or `loglikelihood` with a theta of any other
length fails with a validation error and leaves the entire model state —
theta, `invQ`, `invQt`, `logdetQ`, `current_theta`, `current_loglikelihood` —
unchanged. -/
theorem claim_C5 : ∀ (β : Type) [LinearOrderedField β] (F : Arith β)
    (gp : GP β) (θ : Vec β),
    (∀ t, gp.theta = some t → t.length = gp.D + 1) →
    θ.length ≠ gp.D + 1 →
    run_set_params F gp θ = (gp, some GPError.validationError) ∧
    run_loglikelihood F gp θ = (gp, none, some GPError.validationError) := by
  intro β _ F gp θ hinv hlen
  have hsp := set_params_of_bad_length F gp θ hlen
  have hne : gp.theta ≠ some θ := fun hc => hlen (hinv θ hc)
  constructor
  · unfold run_set_params
    rw [hsp]
  · unfold run_loglikelihood loglikelihood
    rw [if_neg hne, hsp]

/-- Witness for C5: a wrong-length theta (5 entries against `D + 1 = 4`)
rejected on the concrete 3 × 3 model, leaving it unchanged. -/
theorem claim_C5_witness :
    run_set_params qF gpEx33 [0, 0, 0, 0, 0] =
      (gpEx33, some GPError.validationError) ∧
    run_loglikelihood qF gpEx33 [0, 0, 0, 0, 0] =
      (gpEx33, none, some GPError.validationError) :=
  claim_C5 ℚ qF gpEx33 [0, 0, 0, 0, 0]
    (fun t ht => Option.noConfusion ht) (by decide)

end Claims1

section Claims2

/-- C1 counterexample: the spec's formula `-½·(targetsᵗ·invQt + logdetQ +
n·log(2π))`, evaluated at the repository test's own reference quantities for
the concrete input (targets `[2,3,4]`, reference `invQt` and `logdetQ`),
cannot equal the test's expected return value `17.00784177045409`: the
formula's value is negative while the reference scalar is positive — the code
returns `+½·(…)`, not `-½·(…)`. -/
theorem claim_C1_counterexample :
    specLogLikFormula [2, 3, 4]
      [1.9407564968639992, 2.934511573315307, 3.954323806676608]
      (-0.00029059870020992285) 3 ≠ 17.00784177045409 := by
  intro heq
  have hpi : (3 : ℝ) < Real.pi := Real.pi_gt_three
  have hlog : 0 < Real.log (2 * Real.pi) := Real.log_pos (by nlinarith)
  have hdot : (28 : ℝ) ≤ dotZ ([2, 3, 4] : Vec ℝ)
      [1.9407564968639992, 2.934511573315307, 3.954323806676608] := by
    simp [dotZ]
    norm_num
  simp only [specLogLikFormula, Nat.cast_ofNat] at heq
  nlinarith [hlog, hdot]

/-- C1 (amended): for every model and every valid-length theta differing from
the stored one, when stabilization succeeds `loglikelihood` returns the scalar
`+½·(targetsᵗ·invQt + logdetQ + n·log(2π))` computed from the freshly
prepared quantities (the positive half-sum — the negative marginal
log-likelihood — as fixed by the test's reference value `17.00784177045409`,
amending the spec's `-½` sign), and afterwards `current_theta` equals theta
and `current_loglikelihood` equals the returned scalar. -/
theorem claim_C1_amended : ∀ (β : Type) [LinearOrderedField β] (F : Arith β)
    (gp : GP β) (θ : Vec β) (L : Mat β) (ε : β),
    gp.theta ≠ some θ →
    θ.length = gp.D + 1 →
    jit_cholesky F (addDiag (covMatrix F gp.inputs θ gp.D) (nuggetVal gp)) 5 =
      some (L, ε) →
    loglikelihood F gp θ = .ok
      ({ gp with
          theta := some θ,
          invQ := some (invFromChol L gp.n),
          invQt := some (cholSolve L gp.targets),
          logdetQ := some (2 * ((diagJ L).map F.log).sum),
          current_theta := some θ,
          current_loglikelihood := some (negLogLik F gp.targets
            (cholSolve L gp.targets) (2 * ((diagJ L).map F.log).sum) gp.n) },
        negLogLik F gp.targets (cholSolve L gp.targets)
          (2 * ((diagJ L).map F.log).sum) gp.n) ∧
    (∀ (g : GP β) (l : β), loglikelihood F gp θ = .ok (g, l) →
      g.current_theta = some θ ∧ g.current_loglikelihood = some l ∧
      l = negLogLik F gp.targets (cholSolve L gp.targets)
        (2 * ((diagJ L).map F.log).sum) gp.n) := by
  intro β _ F gp θ L ε hne hlen hjit
  have hprep := prepare_likelihood_eq F { gp with theta := some θ } θ L ε rfl
    hjit
  have hset : set_params F gp θ = .ok
      { gp with
        theta := some θ,
        invQ := some (invFromChol L gp.n),
        invQt := some (cholSolve L gp.targets),
        logdetQ := some (2 * ((diagJ L).map F.log).sum) } := by
    rw [set_params_of_length F gp θ hlen]
    exact hprep
  have hbranch : (if gp.theta = some θ then Except.ok gp
      else set_params F gp θ) = .ok
      { gp with
        theta := some θ,
        invQ := some (invFromChol L gp.n),
        invQt := some (cholSolve L gp.targets),
        logdetQ := some (2 * ((diagJ L).map F.log).sum) } := by
    rw [if_neg hne]
    exact hset
  have hmain := loglikelihood_branch_ok F gp _ θ (cholSolve L gp.targets)
    (2 * ((diagJ L).map F.log).sum) hbranch rfl rfl
  refine ⟨hmain, ?_⟩
  intro g l h
  rw [hmain] at h
  have hpair := Except.ok.inj h
  have hg : g = _ := (congrArg Prod.fst hpair).symm
  have hl : l = _ := (congrArg Prod.snd hpair).symm
  subst hg
  subst hl
  exact ⟨rfl, rfl, rfl⟩

/-- Witness for C1: on the concrete 3 × 3 model with theta = zeros(4) (where
the dummy rational bundle makes the covariance the identity), the call returns
`29/2 = ½·(⟨targets, invQt⟩ + logdetQ + n·log 2π)` and caches it. -/
theorem claim_C1_witness :
    gpEx33.theta ≠ some [0, 0, 0, 0] ∧
    ([0, 0, 0, 0] : Vec ℚ).length = gpEx33.D + 1 ∧
    (loglikelihood qF gpEx33 [0, 0, 0, 0]).toOption.map
      (fun p => (p.1.current_theta, p.1.current_loglikelihood, p.2)) =
      some (some [0, 0, 0, 0], some (29 / 2), 29 / 2) := by
  refine ⟨by decide, by decide, ?_⟩
  rw [(claim_C1_amended ℚ qF gpEx33 [0, 0, 0, 0] [[1], [0, 1], [0, 0, 1]] 0
    (by decide) (by decide)
    (by norm_num [jit_cholesky, cholesky, cholAux, cholNewRow, offDiagEntries,
      dotZ, qF, covMatrix, mkMat, kernelEntry, entry, addDiag, List.range_succ,
      nuggetVal, gpEx33])).1]
  norm_num [negLogLik, dotZ, qF, gpEx33, cholSolve, backSub, forwardSub, fsub,
    bsub, colBelow, diagJ, List.range_succ, entry]
  exact ⟨_, _, rfl, rfl, rfl, rfl⟩

/-- C6: `loglikelihood` is deterministic and caching-stable — after a
successful call returned `(gp1, l)`, calling again with the same theta returns
the identical scalar and the identical state: the cached quantities `invQ`,
`invQt`, `logdetQ` are not recomputed (the state is returned unchanged) and
the result is the cached `current_loglikelihood`. -/
theorem claim_C6 : ∀ (β : Type) [LinearOrderedField β] (F : Arith β)
    (gp gp1 : GP β) (θ : Vec β) (l : β),
    loglikelihood F gp θ = .ok (gp1, l) →
    loglikelihood F gp1 θ = .ok (gp1, l) ∧
    gp1.current_theta = some θ ∧ gp1.current_loglikelihood = some l := by
  intro β _ F gp gp1 θ l h
  unfold loglikelihood at h
  cases hb : (if gp.theta = some θ then Except.ok gp
      else set_params F gp θ) with
  | error e => rw [hb] at h; exact absurd h (by simp)
  | ok gp0 =>
    rw [hb] at h
    have hθ0 : gp0.theta = some θ := by
      by_cases hgt : gp.theta = some θ
      · rw [if_pos hgt] at hb
        have hgg : gp = gp0 := Except.ok.inj hb
        rw [← hgg]
        exact hgt
      · rw [if_neg hgt] at hb
        exact (set_params_ok F gp gp0 θ hb).1
    obtain ⟨gi, gt, gn, gD, gng, gθv, giQ, giqt, gld, gct, gcl⟩ := gp0
    have hθv : gθv = some θ := hθ0
    cases giqt with
    | none => simp at h
    | some iqt =>
      cases gld with
      | none => simp at h
      | some ld =>
        have hpair := Except.ok.inj h
        have hg : gp1 = _ := (congrArg Prod.fst hpair).symm
        have hl : l = _ := (congrArg Prod.snd hpair).symm
        subst hg
        subst hl
        refine ⟨?_, rfl, rfl⟩
        unfold loglikelihood
        rw [if_pos (show (⟨gi, gt, gn, gD, gng, gθv, giQ, some iqt, some ld,
          some θ, some (negLogLik F gt iqt ld gn)⟩ : GP β).theta = some θ
          from hθv)]

/-- Witness for C6: a second `loglikelihood` call on the concrete 3 × 3 model
state produced by the first call returns the identical cached scalar and
leaves the state bit-identical. -/
theorem claim_C6_witness :
    loglikelihood qF gpAfter33 [0, 0, 0, 0] = .ok (gpAfter33, 29 / 2) ∧
    gpAfter33.current_theta = some [0, 0, 0, 0] ∧
    gpAfter33.current_loglikelihood = some (29 / 2) :=
  claim_C6 ℚ qF gpEx33 gpAfter33 [0, 0, 0, 0] (29 / 2) (by
    norm_num [loglikelihood, set_params, prepare_likelihood, stabilized_factor,
      jit_cholesky, cholesky, cholAux, cholNewRow, offDiagEntries, dotZ, qF,
      covMatrix, mkMat, kernelEntry, entry, addDiag, nuggetVal, gpEx33,
      gpAfter33, negLogLik, cholSolve, backSub, forwardSub, fsub, bsub,
      colBelow, idMat, diagJ, invFromChol, List.range_succ]
    rw [if_neg (show ¬((none : Option (Vec ℚ)) = some [0, 0, 0, 0]) by simp)]
    norm_num [negLogLik, dotZ])

end Claims2

section RealEval

/-- The genuine real square root satisfies the `SqrtExact` contract. -/
theorem sqrtExact_realF : SqrtExact realF :=
  fun _ hx => ⟨Real.sqrt_pos.mpr hx, Real.mul_self_sqrt hx.le⟩

theorem cholNewRow_isSome (F : Arith ℝ) (rowA : Vec ℝ) (prev : Mat ℝ)
    (h : ¬(rowA.getD prev.length 0 -
      dotZ (offDiagEntries rowA prev prev.length)
        (offDiagEntries rowA prev prev.length) ≤ 0)) :
    cholNewRow F rowA prev =
      some (offDiagEntries rowA prev prev.length ++
        [F.sqrt (rowA.getD prev.length 0 -
          dotZ (offDiagEntries rowA prev prev.length)
            (offDiagEntries rowA prev prev.length))]) := by
  unfold cholNewRow
  rw [if_neg h]

theorem cholNewRow_isNone (F : Arith ℝ) (rowA : Vec ℝ) (prev : Mat ℝ)
    (h : rowA.getD prev.length 0 -
      dotZ (offDiagEntries rowA prev prev.length)
        (offDiagEntries rowA prev prev.length) ≤ 0) :
    cholNewRow F rowA prev = none := by
  unfold cholNewRow
  rw [if_pos h]

/-- A 3 × 3 matrix with a non-positive leading entry fails plain Cholesky
at the first pivot. -/
theorem cholesky3_fail0 (F : Arith ℝ) (a p q : ℝ) (v w : Vec ℝ) (ha : a ≤ 0) :
    cholesky F [[a, p, q], v, w] = none := by
  have h0 : cholNewRow F [a, p, q] [] = none := by
    apply cholNewRow_isNone
    simp only [List.length_nil, offDiagEntries, dotZ_nil_left,
      List.getD_cons_zero]
    linarith
  simp [cholesky, cholAux, h0]

/-- A 3 × 3 matrix `[[a,·,·],[1,b,·],·]` with `a > 0` and `b·a ≤ 1` fails
plain Cholesky at the second pivot: `b - 1/a ≤ 0`. -/
theorem cholesky3_fail1 (F : Arith ℝ) (hs : SqrtExact F) (a b p q r : ℝ)
    (w : Vec ℝ) (ha : 0 < a) (hab : b * a ≤ 1) :
    cholesky F [[a, p, q], [1, b, r], w] = none := by
  obtain ⟨hspos, hsmul⟩ := hs a ha
  have h0 : cholNewRow F [a, p, q] [] = some [F.sqrt a] := by
    rw [cholNewRow_isSome F [a, p, q] []
      (by simp only [List.length_nil, offDiagEntries, dotZ_nil_left,
            List.getD_cons_zero]
          linarith)]
    simp only [List.length_nil, offDiagEntries, dotZ_nil_left,
      List.getD_cons_zero, sub_zero, List.nil_append]
  have h1 : cholNewRow F [1, b, r] [[F.sqrt a]] = none := by
    apply cholNewRow_isNone
    simp only [List.length_cons, List.length_nil, offDiagEntries,
      dotZ_nil_left, List.getD_cons_zero, List.getD_cons_succ, sub_zero,
      List.nil_append, dotZ_cons, dotZ_nil_right, zero_add]
    have hsq : 1 / F.sqrt a * (1 / F.sqrt a) = 1 / a := by
      rw [div_mul_div_comm, one_mul, hsmul]
    rw [show (1 : ℝ) / F.sqrt a * (1 / F.sqrt a) + 0 = 1 / a by
      rw [add_zero, hsq]]
    have hb : b ≤ 1 / a := (le_div_iff₀ ha).mpr hab
    linarith
  simp [cholesky, cholAux, h0, h1]

/-- The test suite's first stabilization-failure matrix
`[[1e-6, 1, 0], [1, 1, 1], [0, 1, 1e-10]]` (indefinite despite a positive
diagonal). -/
noncomputable def m1Bad : Mat ℝ :=
  [[1 / 1000000, 1, 0], [1, 1, 1], [0, 1, 1 / 10000000000]]

/-- The test suite's second stabilization-failure matrix
`[[-1, 2, 2], [2, 3, 2], [2, 2, -3]]` (negative diagonal entries). -/
noncomputable def m2Bad : Mat ℝ := [[-1, 2, 2], [2, 3, 2], [2, 2, -3]]

theorem addDiag_m1Bad (t : ℝ) : addDiag m1Bad t =
    [[1 / 1000000 + t, 1, 0], [1, 1 + t, 1], [0, 1, 1 / 10000000000 + t]] := by
  norm_num [addDiag, mkMat, entry, m1Bad, List.range_succ]

theorem addDiag_m2Bad (t : ℝ) : addDiag m2Bad t =
    [[-1 + t, 2, 2], [2, 3 + t, 2], [2, 2, -3 + t]] := by
  norm_num [addDiag, mkMat, entry, m2Bad, List.range_succ]

theorem meanDiag_m1Bad : meanDiag m1Bad = 3333336667 / 10000000000 := by
  norm_num [meanDiag, diagJ, m1Bad, entry, List.range_succ]

theorem meanDiag_m2Bad : meanDiag m2Bad = -1 / 3 := by
  norm_num [meanDiag, diagJ, m2Bad, entry, List.range_succ]

/-- Every jitter attempt on `m2Bad` fails: the jitter stays non-positive, so
the first pivot stays negative. -/
theorem jitGo_m2Bad (F : Arith ℝ) :
    ∀ (k : Nat) (t : ℝ), t ≤ 0 → jitGo F m2Bad k t = none := by
  intro k
  induction k with
  | zero => intro t _; rfl
  | succ k ih =>
    intro t ht
    have hc : cholesky F (addDiag m2Bad t) = none := by
      rw [addDiag_m2Bad t]
      exact cholesky3_fail0 F (-1 + t) 2 2 _ _ (by linarith)
    unfold jitGo
    rw [hc]
    exact ih (t * 10) (by linarith)

/-- Every jitter attempt on `m1Bad` fails while the total jitter budget stays
below `1/25`: the second pivot `(1+t) - 1/(1e-6+t)` stays negative. -/
theorem jitGo_m1Bad (F : Arith ℝ) (hs : SqrtExact F) :
    ∀ (k : Nat) (t : ℝ), 0 ≤ t → t * 10 ^ k ≤ 1 / 25 →
      jitGo F m1Bad k t = none := by
  intro k
  induction k with
  | zero => intro t _ _; rfl
  | succ k ih =>
    intro t ht0 htb
    have h10 : (1 : ℝ) ≤ 10 ^ (k + 1) := one_le_pow₀ (by norm_num)
    have ht25 : t ≤ 1 / 25 := by
      calc t = t * 1 := by ring
        _ ≤ t * 10 ^ (k + 1) := mul_le_mul_of_nonneg_left h10 ht0
        _ ≤ 1 / 25 := htb
    have hc : cholesky F (addDiag m1Bad t) = none := by
      rw [addDiag_m1Bad t]
      refine cholesky3_fail1 F hs (1 / 1000000 + t) (1 + t) 1 0 1 _
        (by linarith) ?_
      have hsq : t * t ≤ 1 / 625 := by
        calc t * t ≤ (1 / 25) * (1 / 25) :=
              mul_le_mul ht25 ht25 ht0 (by norm_num)
          _ = 1 / 625 := by norm_num
      nlinarith
    unfold jitGo
    rw [hc]
    refine ih (t * 10) (by linarith) ?_
    rw [show t * 10 * 10 ^ k = t * 10 ^ (k + 1) by rw [pow_succ]; ring]
    exact htb

end RealEval

section Claims3

/-- C3: on both adversarial matrices of the test suite — `[[1e-6,1,0],
[1,1,1],[0,1,1e-10]]` and `[[-1,2,2],[2,3,2],[2,2,-3]]`, each with a negative
eigenvalue comparable to its diagonal — the stabilized factorizer exhausts its
bounded jitter budget (5 escalating attempts after the plain one) and fails
with a stabilization failure, a condition distinct from a validation error. -/
theorem claim_C3 : ∀ F : Arith ℝ, SqrtExact F →
    stabilized_factor F m1Bad = .error .stabilizationFailure ∧
    stabilized_factor F m2Bad = .error .stabilizationFailure ∧
    GPError.stabilizationFailure ≠ GPError.validationError := by
  intro F hs
  refine ⟨?_, ?_, by decide⟩
  · have hplain : cholesky F m1Bad = none :=
      cholesky3_fail1 F hs (1 / 1000000) 1 1 0 1 _ (by norm_num) (by norm_num)
    have hloop := jitGo_m1Bad F hs 5
      (meanDiag m1Bad * (1 / 1000000))
      (by rw [meanDiag_m1Bad]; norm_num)
      (by rw [meanDiag_m1Bad]; norm_num)
    simp only [stabilized_factor, jit_cholesky, hplain, hloop]
  · have hplain : cholesky F m2Bad = none :=
      cholesky3_fail0 F (-1) 2 2 _ _ (by norm_num)
    have hloop := jitGo_m2Bad F 5
      (meanDiag m2Bad * (1 / 1000000))
      (by rw [meanDiag_m2Bad]; norm_num)
    simp only [stabilized_factor, jit_cholesky, hplain, hloop]

/-- Witness for C3: the genuine real-arithmetic bundle exhausts the budget on
both matrices. -/
theorem claim_C3_witness :
    stabilized_factor realF m1Bad = .error .stabilizationFailure ∧
    stabilized_factor realF m2Bad = .error .stabilizationFailure :=
  ⟨(claim_C3 realF sqrtExact_realF).1, (claim_C3 realF sqrtExact_realF).2.1⟩

end Claims3

section NearSingular

theorem jitGo_first_success (F : Arith ℝ) (A L : Mat ℝ) (k : Nat) (j : ℝ)
    (h : cholesky F (addDiag A j) = some L) :
    jitGo F A (k + 1) j = some (L, j) := by
  unfold jitGo
  rw [h]

/-- The off-diagonal entry `exp(-5) ≈ 0.0067379…` of the test suite's
near-singular covariance matrix, as the decimal literal the test file uses. -/
noncomputable def aNS : ℝ := 0.0067379469990855

/-- The jittered leading entry `1 + 1e-6`. -/
noncomputable def cNS : ℝ := 1000001 / 1000000

/-- The test suite's near-singular but correctable matrix
`[[1, 1, a], [1, 1, a], [a, a, 1]]`. -/
noncomputable def nearSingR : Mat ℝ := [[1, 1, aNS], [1, 1, aNS], [aNS, aNS, 1]]

theorem addDiag_nearSingR : addDiag nearSingR (1 / 1000000) =
    [[cNS, 1, aNS], [1, cNS, aNS], [aNS, aNS, cNS]] := by
  norm_num [addDiag, mkMat, entry, nearSingR, List.range_succ, cNS]

theorem meanDiag_nearSingR : meanDiag nearSingR = 1 := by
  norm_num [meanDiag, diagJ, nearSingR, entry, List.range_succ]

/-- The plain Cholesky attempt on the near-singular matrix fails: the second
pivot is exactly `1 - 1 = 0`. -/
theorem chol_nearSingR_plain : cholesky realF nearSingR = none := by
  have h0 : cholNewRow realF [1, 1, aNS] [] = some [1] := by
    rw [cholNewRow_isSome realF [1, 1, aNS] []
      (by simp only [List.length_nil, offDiagEntries, dotZ_nil_left,
            List.getD_cons_zero]
          norm_num)]
    simp only [List.length_nil, offDiagEntries, dotZ_nil_left,
      List.getD_cons_zero, sub_zero, List.nil_append]
    rw [show realF.sqrt = Real.sqrt from rfl, Real.sqrt_one]
  have h1 : cholNewRow realF [1, 1, aNS] [[1]] = none := by
    apply cholNewRow_isNone
    simp only [List.length_cons, List.length_nil, offDiagEntries,
      dotZ_nil_left, List.getD_cons_zero, List.getD_cons_succ, sub_zero,
      List.nil_append, dotZ_cons, dotZ_nil_right, zero_add]
    norm_num
  simp [cholesky, cholAux, h0, h1]

/-- The first jittered attempt on the near-singular matrix succeeds: all
three pivots of `A + 1e-6·I` are positive. -/
theorem chol_nearSingR_jit :
    ∃ r, cholesky realF [[cNS, 1, aNS], [1, cNS, aNS], [aNS, aNS, cNS]] =
      some r := by
  have hc : (0 : ℝ) < cNS := by norm_num [cNS]
  obtain ⟨hsp, hsm⟩ := sqrtExact_realF cNS hc
  have hcs : realF.sqrt cNS = Real.sqrt cNS := rfl
  rw [hcs] at hsp hsm
  have hu : (0 : ℝ) < cNS - 1 / cNS := by norm_num [cNS]
  obtain ⟨hup, hum⟩ := sqrtExact_realF (cNS - 1 / cNS) hu
  have hus : realF.sqrt (cNS - 1 / cNS) = Real.sqrt (cNS - 1 / cNS) := rfl
  rw [hus] at hup hum
  have g0 : cholNewRow realF [cNS, 1, aNS] [] = some [Real.sqrt cNS] := by
    rw [cholNewRow_isSome realF [cNS, 1, aNS] []
      (by simp only [List.length_nil, offDiagEntries, dotZ_nil_left,
            List.getD_cons_zero]
          norm_num [cNS])]
    simp only [List.length_nil, offDiagEntries, dotZ_nil_left,
      List.getD_cons_zero, sub_zero, List.nil_append]
    rw [hcs]
  have hinvsq : 1 / Real.sqrt cNS * (1 / Real.sqrt cNS) = 1 / cNS := by
    rw [div_mul_div_comm, one_mul, hsm]
  have g1 : cholNewRow realF [1, cNS, aNS] [[Real.sqrt cNS]] =
      some [1 / Real.sqrt cNS, Real.sqrt (cNS - 1 / cNS)] := by
    rw [cholNewRow_isSome realF [1, cNS, aNS] [[Real.sqrt cNS]]
      (by simp only [List.length_cons, List.length_nil, offDiagEntries,
            dotZ_nil_left, List.getD_cons_zero, List.getD_cons_succ, sub_zero,
            List.nil_append, dotZ_cons, dotZ_nil_right, zero_add]
          rw [show (1 : ℝ) / Real.sqrt cNS * (1 / Real.sqrt cNS) + 0 = 1 / cNS
            from by rw [add_zero, hinvsq]]
          norm_num [cNS])]
    simp only [List.length_cons, List.length_nil, offDiagEntries,
      dotZ_nil_left, List.getD_cons_zero, List.getD_cons_succ, sub_zero,
      List.nil_append, dotZ_cons, dotZ_nil_right, zero_add]
    rw [show (1 : ℝ) / Real.sqrt cNS * (1 / Real.sqrt cNS) + 0 = 1 / cNS
      from by rw [add_zero, hinvsq], hus]
    rfl
  obtain ⟨r2, g2⟩ : ∃ r, cholNewRow realF [aNS, aNS, cNS]
      [[Real.sqrt cNS], [1 / Real.sqrt cNS, Real.sqrt (cNS - 1 / cNS)]] =
      some r := by
    refine ⟨_, cholNewRow_isSome _ _ _ ?_⟩
    simp only [List.length_cons, List.length_nil, offDiagEntries,
      dotZ_nil_left, List.getD_cons_zero, List.getD_cons_succ, sub_zero,
      List.nil_append, List.singleton_append, List.cons_append, dotZ_cons,
      dotZ_nil_right, zero_add, add_zero]
    rw [show aNS / Real.sqrt cNS * (1 / Real.sqrt cNS) = aNS / cNS from by
      rw [div_mul_div_comm, mul_one, hsm]]
    rw [show aNS / Real.sqrt cNS * (aNS / Real.sqrt cNS) = aNS * aNS / cNS
      from by rw [div_mul_div_comm, hsm]]
    rw [show (aNS - aNS / cNS) / Real.sqrt (cNS - 1 / cNS) *
        ((aNS - aNS / cNS) / Real.sqrt (cNS - 1 / cNS)) =
        (aNS - aNS / cNS) * (aNS - aNS / cNS) / (cNS - 1 / cNS) from by
      rw [div_mul_div_comm, hum]]
    norm_num [aNS, cNS]
  refine ⟨[[Real.sqrt cNS], [1 / Real.sqrt cNS, Real.sqrt (cNS - 1 / cNS)],
    r2], ?_⟩
  simp only [cholesky, cholAux, g0, g1, g2, List.nil_append,
    List.singleton_append, List.cons_append]

/-- The stabilized factorizer on the near-singular matrix succeeds on its
first jitter attempt, reporting exactly the jitter `1e-6`. -/
theorem jit_nearSingR :
    (jit_cholesky realF nearSingR 5).map Prod.snd = some (1 / 1000000) := by
  obtain ⟨Lf, hLf⟩ := chol_nearSingR_jit
  have hatt : cholesky realF (addDiag nearSingR (1 / 1000000)) = some Lf := by
    rw [addDiag_nearSingR]
    exact hLf
  have h5 : jitGo realF nearSingR 5 (1 / 1000000) = some (Lf, 1 / 1000000) := by
    rw [show (5 : ℕ) = 4 + 1 from rfl]
    exact jitGo_first_success realF nearSingR Lf 4 (1 / 1000000) hatt
  simp only [jit_cholesky, chol_nearSingR_plain, meanDiag_nearSingR, one_mul,
    h5, Option.map_some']

/-- The test suite's strictly positive-definite matrix with the exact integer
Cholesky factor `[[2],[6,1],[-8,5,3]]`. -/
def pdEx : Mat ℚ := [[4, 12, -16], [12, 37, -43], [-16, -43, 98]]

/-- The same positive-definite matrix over the reals. -/
noncomputable def pdExR : Mat ℝ := [[4, 12, -16], [12, 37, -43], [-16, -43, 98]]

/-- Over the reals, the plain Cholesky factorization of the positive-definite
example succeeds with the exact factor, so the stabilized factorizer reports
zero jitter. -/
theorem jit_pdExR :
    jit_cholesky realF pdExR 5 = some ([[2], [6, 1], [-8, 5, 3]], 0) := by
  have s4 : Real.sqrt 4 = 2 := by
    rw [show (4 : ℝ) = 2 ^ 2 by norm_num, Real.sqrt_sq (by norm_num : (0:ℝ) ≤ 2)]
  have s9 : Real.sqrt 9 = 3 := by
    rw [show (9 : ℝ) = 3 ^ 2 by norm_num, Real.sqrt_sq (by norm_num : (0:ℝ) ≤ 3)]
  have r0 : cholNewRow realF [4, 12, -16] [] = some [2] := by
    rw [cholNewRow_isSome realF [4, 12, -16] []
      (by simp only [List.length_nil, offDiagEntries, dotZ_nil_left,
            List.getD_cons_zero]
          norm_num)]
    simp only [List.length_nil, offDiagEntries, dotZ_nil_left,
      List.getD_cons_zero, sub_zero, List.nil_append]
    rw [show realF.sqrt = Real.sqrt from rfl, s4]
  have r1 : cholNewRow realF [12, 37, -43] [[2]] = some [6, 1] := by
    rw [cholNewRow_isSome realF [12, 37, -43] [[2]]
      (by simp only [List.length_cons, List.length_nil, offDiagEntries,
            dotZ_nil_left, List.getD_cons_zero, List.getD_cons_succ, sub_zero,
            List.nil_append, dotZ_cons, dotZ_nil_right, zero_add]
          norm_num)]
    rw [show realF.sqrt = Real.sqrt from rfl]
    simp only [List.length_cons, List.length_nil, offDiagEntries,
      dotZ_nil_left, List.getD_cons_zero, List.getD_cons_succ, sub_zero,
      List.nil_append, dotZ_cons, dotZ_nil_right, zero_add]
    norm_num [Real.sqrt_one]
  have r2 : cholNewRow realF [-16, -43, 98] [[2], [6, 1]] = some [-8, 5, 3] := by
    rw [cholNewRow_isSome realF [-16, -43, 98] [[2], [6, 1]]
      (by simp only [List.length_cons, List.length_nil, offDiagEntries,
            dotZ_nil_left, List.getD_cons_zero, List.getD_cons_succ, sub_zero,
            List.nil_append, List.singleton_append, List.cons_append,
            dotZ_cons, dotZ_nil_right, zero_add, add_zero]
          norm_num)]
    rw [show realF.sqrt = Real.sqrt from rfl]
    simp only [List.length_cons, List.length_nil, offDiagEntries,
      dotZ_nil_left, List.getD_cons_zero, List.getD_cons_succ, sub_zero,
      List.nil_append, List.singleton_append, List.cons_append, dotZ_cons,
      dotZ_nil_right, zero_add, add_zero]
    norm_num [show ((98 : ℝ) - (-16 / 2 * (-16 / 2) +
      ((-43 - -16 / 2 * 6) / 1 * ((-43 - -16 / 2 * 6) / 1) + 0))) = 9
      by norm_num, s9]
  have hchol : cholesky realF pdExR = some [[2], [6, 1], [-8, 5, 3]] := by
    simp only [pdExR, cholesky, cholAux, r0, r1, r2, List.nil_append,
      List.singleton_append, List.cons_append]
  unfold jit_cholesky
  rw [hchol]

end NearSingular

section Claims4

/-- C2: whenever the stabilized factorizer succeeds on a symmetric matrix `A`,
the returned jagged lower-triangular factor `L` satisfies `L·Lᵗ = A + ε·I`
exactly (in exact arithmetic) for the reported jitter `ε ≥ 0`; the strictly
positive-definite matrix `[[4,12,-16],[12,37,-43],[-16,-43,98]]` reproduces
the exact factor `[[2],[6,1],[-8,5,3]]` with zero jitter; and the
near-singular matrix `[[1,1,a],[1,1,a],[a,a,1]]` succeeds with the small
non-zero diagonal correction `ε = 1e-6`. -/
theorem claim_C2 :
    (∀ (β : Type) [LinearOrderedField β] (F : Arith β) (A L : Mat β) (ε : β)
      (t : Nat), SqrtExact F →
      (∀ i j, i < A.length → j < A.length → entry A i j = entry A j i) →
      jit_cholesky F A t = some (L, ε) →
      0 ≤ ε ∧ L.length = A.length ∧
      (∀ i j, i < A.length → j < A.length →
        dotZ (L.getD i []) (L.getD j []) =
          entry A i j + if i = j then ε else 0)) ∧
    jit_cholesky qF pdEx 5 = some ([[2], [6, 1], [-8, 5, 3]], 0) ∧
    (jit_cholesky realF nearSingR 5).map Prod.snd = some (1 / 1000000) := by
  refine ⟨?_, ?_, jit_nearSingR⟩
  · intro β _ F A L ε t hs hsym hjit
    obtain ⟨hinv, hlen, hεnn⟩ := jit_cholesky_spec F hs A L ε t hjit
    refine ⟨hεnn, hlen, ?_⟩
    intro i j hi hj
    rcases le_total j i with hji | hij
    · rw [hinv.2.2.2 i j (by rwa [hlen]) hji, addDiag_entry A ε i j hi hj]
    · rw [dotZ_comm, hinv.2.2.2 j i (by rwa [hlen]) hij,
        addDiag_entry A ε j i hj hi, hsym j i hj hi]
      congr 1
      by_cases hij' : i = j
      · rw [if_pos hij', if_pos hij'.symm]
      · rw [if_neg hij', if_neg (fun hc => hij' hc.symm)]
  · norm_num [jit_cholesky, cholesky, cholAux, cholNewRow, offDiagEntries,
      dotZ, qF, pdEx]

/-- Witness for C2: the general squaring-back property applied over the reals
to the positive-definite example at entry `(2, 1)`: `(-8)·6 + 5·1 = -43`. -/
theorem claim_C2_witness :
    SqrtExact realF ∧
    dotZ (([[2], [6, 1], [-8, 5, 3]] : Mat ℝ).getD 2 [])
        (([[2], [6, 1], [-8, 5, 3]] : Mat ℝ).getD 1 []) =
      entry pdExR 2 1 + if 2 = 1 then (0 : ℝ) else 0 := by
  refine ⟨sqrtExact_realF, ?_⟩
  exact (claim_C2.1 ℝ realF pdExR [[2], [6, 1], [-8, 5, 3]] 0 5
    sqrtExact_realF
    (by intro i j hi hj
        simp only [pdExR, List.length_cons, List.length_nil] at hi hj
        interval_cases i <;> interval_cases j <;> norm_num [entry, pdExR])
    jit_pdExR).2.2 2 1 (by norm_num [pdExR]) (by norm_num [pdExR])

/-- C4: for every model with theta set, when the stabilized factorizer
succeeds on the regularized covariance `Q` with factor `L` and jitter `ε`,
`_prepare_likelihood` caches `invQt` solving `(Q + ε·I)·x = targets`, an
`invQ` whose row `k` solves `(Q + ε·I)·x = e_k` (the inverse of the symmetric
regularized covariance), and `logdetQ = 2·Σ log(diag L)` — in exact
arithmetic, the idealization of the test's floating-point reference values. -/
theorem claim_C4 : ∀ (β : Type) [LinearOrderedField β] (F : Arith β)
    (gp : GP β) (θ : Vec β) (L : Mat β) (ε : β),
    SqrtExact F → gp.theta = some θ → gp.inputs.length = gp.n →
    jit_cholesky F (addDiag (covMatrix F gp.inputs θ gp.D) (nuggetVal gp)) 5 =
      some (L, ε) →
    prepare_likelihood F gp = .ok
      { gp with
        invQ := some (invFromChol L gp.n),
        invQt := some (cholSolve L gp.targets),
        logdetQ := some (2 * ((diagJ L).map F.log).sum) } ∧
    0 ≤ ε ∧
    (∀ i, i < gp.n →
      dotZ ((addDiag (addDiag (covMatrix F gp.inputs θ gp.D) (nuggetVal gp))
          ε).getD i []) (cholSolve L gp.targets) = gp.targets.getD i 0) ∧
    (∀ k i, k < gp.n → i < gp.n →
      dotZ ((addDiag (addDiag (covMatrix F gp.inputs θ gp.D) (nuggetVal gp))
          ε).getD i []) ((invFromChol L gp.n).getD k []) =
        if k = i then (1 : β) else 0) := by
  intro β _ F gp θ L ε hs hθ hn hjit
  exact prepare_likelihood_spec F hs gp θ L ε hθ hn hjit

/-- A single-point real model with theta = zeros(4) already stored, whose
covariance matrix is exactly `[[1]]`. -/
noncomputable def gpR1 : GP ℝ :=
  ⟨[[1, 2, 3]], [2], 1, 3, none, some [0, 0, 0, 0],
    none, none, none, none, none⟩

theorem covQ_gpR1 :
    addDiag (covMatrix realF gpR1.inputs [0, 0, 0, 0] gpR1.D)
      (nuggetVal gpR1) = [[1]] := by
  norm_num [addDiag, covMatrix, mkMat, kernelEntry, entry, List.range_succ,
    gpR1, nuggetVal, realF, Real.exp_zero]

theorem chol_one : cholesky realF [[(1 : ℝ)]] = some [[1]] := by
  have h0 : cholNewRow realF [(1 : ℝ)] [] = some [1] := by
    rw [cholNewRow_isSome realF [(1 : ℝ)] []
      (by simp only [List.length_nil, offDiagEntries, dotZ_nil_left,
            List.getD_cons_zero]
          norm_num)]
    simp only [List.length_nil, offDiagEntries, dotZ_nil_left,
      List.getD_cons_zero, sub_zero, List.nil_append]
    rw [show realF.sqrt = Real.sqrt from rfl, Real.sqrt_one]
  simp [cholesky, cholAux, h0]

/-- Witness for C4: on the single-point real model the prepared `invQt`
solves `Q·x = targets` — `⟨Q row 0, invQt⟩ = 2`. -/
theorem claim_C4_witness :
    SqrtExact realF ∧ gpR1.theta = some [0, 0, 0, 0] ∧
    dotZ ((addDiag (addDiag (covMatrix realF gpR1.inputs [0, 0, 0, 0] gpR1.D)
        (nuggetVal gpR1)) 0).getD 0 [])
      (cholSolve [[1]] gpR1.targets) = gpR1.targets.getD 0 0 := by
  refine ⟨sqrtExact_realF, rfl, ?_⟩
  have hjit1 : jit_cholesky realF
      (addDiag (covMatrix realF gpR1.inputs [0, 0, 0, 0] gpR1.D)
        (nuggetVal gpR1)) 5 = some ([[1]], 0) := by
    rw [covQ_gpR1]
    unfold jit_cholesky
    rw [chol_one]
  exact (claim_C4 ℝ realF gpR1 [0, 0, 0, 0] [[1]] 0 sqrtExact_realF rfl rfl
    hjit1).2.2.1 0 (by norm_num [gpR1])

end Claims4

end Mogp
